import Mathlib

/-!
Verification development for the darklua source-to-source transformation
toolchain.  The definitions below are shallow embeddings of the Rust source:

* `Rojo` — the instance manifest (`src/rules/convert_require/rojo_sourcemap.rs`)
  and instance paths (`src/rules/convert_require/instance_path.rs`).
* `CE` — the compute-expression rule (`src/rules/compute_expression.rs`) and
  its origin helpers (`src/utils/origin.rs`).
* `Bundle` — the instance-mode bundler
  (`src/rules/bundle/roblox_require_mode/mod.rs` and
  `module_definitions.rs`).
* `Worker` — the rule pipeline driver (`src/frontend/worker.rs`).

Recursive traversals that the Rust code performs with loops or unbounded
recursion are embedded with an explicit fuel parameter (structural recursion
on `Nat`) so that every definition evaluates by kernel reduction.  Theorems
about a fueled function either hold for every fuel or carry an explicit
adequacy hypothesis (`sizeOf root ≤ fuel` and similar); the source has no
fuel, so fuel-exhaustion branches are unreachable on the inputs the theorems
quantify over.
-/

namespace Rojo

/-- `InstancePathRoot` from `instance_path.rs`: `Root` (the data model) or
`Script` (the current script instance). -/
inductive InstancePathRoot where
  | root
  | script
deriving DecidableEq, Repr

/-- `InstancePathComponent` from `instance_path.rs`. -/
inductive InstancePathComponent where
  | parent
  | child (name : String)
  | ancestor (name : String)
deriving DecidableEq, Repr

/-- `InstancePath` from `instance_path.rs`: a root and an ordered list of
components. -/
structure InstancePath where
  root : InstancePathRoot
  components : List InstancePathComponent
deriving DecidableEq, Repr

/-- `InstancePath::from_root`. -/
def InstancePath.fromRoot : InstancePath := ⟨.root, []⟩

/-- `InstancePath::from_script`. -/
def InstancePath.fromScript : InstancePath := ⟨.script, []⟩

/-- `InstancePath::parent` (the Rust method mutates in place; here we return
the extended path). -/
def InstancePath.parent (p : InstancePath) : InstancePath :=
  { p with components := p.components ++ [.parent] }

/-- `InstancePath::child`. -/
def InstancePath.child (p : InstancePath) (name : String) : InstancePath :=
  { p with components := p.components ++ [.child name] }

/-- `InstancePath::ancestor`. -/
def InstancePath.ancestor (p : InstancePath) (name : String) : InstancePath :=
  { p with components := p.components ++ [.ancestor name] }

/-- `for _ in 0..n { instance_path.parent() }` from `get_instance_path`. -/
def InstancePath.addParents (p : InstancePath) (n : Nat) : InstancePath :=
  { p with components := p.components ++ List.replicate n .parent }

/-- `RojoSourcemapNode` from `rojo_sourcemap.rs`.  `file_paths` are kept as
plain strings (path normalization is performed by the external `utils`
module before the manifest is used).  The `id`/`parent_id` fields are the
ones assigned by `RojoSourcemapNode::initialize`; well-formedness of that
assignment is captured by hypotheses of the theorems below. -/
inductive RojoSourcemapNode where
  | mk (name : String) (className : String) (filePaths : List String)
      (children : List RojoSourcemapNode) (nodeId : Nat) (parentId : Nat)

/-- Field accessor: `name`. -/
def RojoSourcemapNode.name : RojoSourcemapNode → String
  | .mk n _ _ _ _ _ => n

/-- Field accessor: `class_name`. -/
def RojoSourcemapNode.className : RojoSourcemapNode → String
  | .mk _ c _ _ _ _ => c

/-- Field accessor: `file_paths`. -/
def RojoSourcemapNode.filePaths : RojoSourcemapNode → List String
  | .mk _ _ f _ _ _ => f

/-- Field accessor: `children`. -/
def RojoSourcemapNode.children : RojoSourcemapNode → List RojoSourcemapNode
  | .mk _ _ _ c _ _ => c

/-- Field accessor: `id`. -/
def RojoSourcemapNode.nodeId : RojoSourcemapNode → Nat
  | .mk _ _ _ _ i _ => i

/-- Field accessor: `parent_id`. -/
def RojoSourcemapNode.parentId : RojoSourcemapNode → Nat
  | .mk _ _ _ _ _ p => p

/-- `RojoSourcemapNode::is_root`: `id == parent_id`. -/
def RojoSourcemapNode.isRoot (n : RojoSourcemapNode) : Bool :=
  n.nodeId == n.parentId

/-- The stack-based traversal of `RojoSourcemapNodeIterator`: pop a node,
push its children (a `Vec` push/pop pops the last element first), yield the
node.  The list argument is the stack with its head being the element the
`Vec` would pop next.  Fuel bounds the number of pops; `sizeOf` of the root
is always enough. -/
def iterNodeGo : Nat → List RojoSourcemapNode → List RojoSourcemapNode
  | 0, _ => []
  | _ + 1, [] => []
  | fuel + 1, n :: rest => n :: iterNodeGo fuel (n.children.reverse ++ rest)

/-- `RojoSourcemapNode::iter`: every node of the tree, in the iterator's
order. -/
def iterNode (fuel : Nat) (n : RojoSourcemapNode) : List RojoSourcemapNode :=
  iterNodeGo fuel [n]

/-- `RojoSourcemapNode::get_child`: first direct child with the given id. -/
def getChild (n : RojoSourcemapNode) (childId : Nat) : Option RojoSourcemapNode :=
  n.children.find? (fun c => c.nodeId == childId)

/-- `RojoSourcemapNode::get_descendant`: first node in iteration order with
the given id. -/
def getDescendant (fuel : Nat) (root : RojoSourcemapNode) (descId : Nat) :
    Option RojoSourcemapNode :=
  (iterNode fuel root).find? (fun n => n.nodeId == descId)

/-- `RojoSourcemap` from `rojo_sourcemap.rs`. -/
structure RojoSourcemap where
  rootNode : RojoSourcemapNode
  isDatamodel : Bool

/-- The tail of `RojoSourcemap::parse`: record whether the root class is
`DataModel` (JSON deserialization and path normalization are external). -/
def RojoSourcemap.ofRootNode (root : RojoSourcemapNode) : RojoSourcemap :=
  { rootNode := root, isDatamodel := root.className == "DataModel" }

/-- `RojoSourcemap::find_node`: first node whose `file_paths` contains the
path. -/
def findNode (fuel : Nat) (root : RojoSourcemapNode) (path : String) :
    Option RojoSourcemapNode :=
  (iterNode fuel root).find? (fun n => n.filePaths.contains path)

/-- The `while let` loop of `RojoSourcemap::hierarchy`. -/
def hierarchyGo (fuel : Nat) (root : RojoSourcemapNode) :
    Nat → Nat → List Nat → List Nat
  | 0, _, ids => ids
  | loopFuel + 1, parentId, ids =>
    match getDescendant fuel root parentId with
    | none => ids
    | some parentNode =>
      let ids := ids ++ [parentId]
      if parentNode.isRoot then ids
      else hierarchyGo fuel root loopFuel parentNode.parentId ids

/-- `RojoSourcemap::hierarchy`: the ids of the node and each of its
ancestors, bottom-up. -/
def hierarchy (fuel : Nat) (root : RojoSourcemapNode) (node : RojoSourcemapNode) :
    List Nat :=
  if node.isRoot then [node.nodeId]
  else hierarchyGo fuel root fuel node.parentId [node.nodeId]

/-- `RojoSourcemap::index_descendants`: walk down by child id, appending a
`child` component with each visited node's name. -/
def indexDescendants :
    InstancePath → RojoSourcemapNode → List Nat → Option InstancePath
  | path, _, [] => some path
  | path, node, descendantId :: rest =>
    match getChild node descendantId with
    | none => none
    | some childNode => indexDescendants (path.child childNode.name) childNode rest

/-- The `find_map` in `get_instance_path`: first index of `fromAncestors`
whose id occurs in `targetAncestors`, with the first matching target index
and the common id. -/
def findCommonAncestor (targetAncestors : List Nat) :
    List Nat → Nat → Option (Nat × Nat × Nat)
  | [], _ => none
  | ancestorId :: rest, index =>
    match targetAncestors.findIdx? (fun i => i == ancestorId) with
    | some targetIndex => some (index, targetIndex, ancestorId)
    | none => findCommonAncestor targetAncestors rest (index + 1)

/-- `RojoSourcemap::get_instance_path`. -/
def getInstancePath (fuel : Nat) (m : RojoSourcemap)
    (fromFile targetFile : String) : Option InstancePath := do
  let fromNode ← findNode fuel m.rootNode fromFile
  let targetNode ← findNode fuel m.rootNode targetFile
  let fromAncestors := hierarchy fuel m.rootNode fromNode
  let targetAncestors := hierarchy fuel m.rootNode targetNode
  let (fromIndex, targetIndex, commonAncestorId) ←
    findCommonAncestor targetAncestors fromAncestors 0
  let parents := fromAncestors.take fromIndex
  let descendants := targetAncestors.take targetIndex
  let relativePathLength := parents.length + descendants.length
  if !m.isDatamodel || relativePathLength ≤ targetAncestors.length then
    let instancePath := InstancePath.fromScript.addParents parents.length
    let commonAncestor ← getDescendant fuel m.rootNode commonAncestorId
    indexDescendants instancePath commonAncestor descendants.reverse
  else
    indexDescendants InstancePath.fromRoot m.rootNode
      (targetAncestors.reverse.drop 1)

/-- The `Ancestor` upward loop in `get_file_from_instance_path`: check the
cursor's name, stop at the root, otherwise climb to the parent. -/
def ancestorSearch (fuel : Nat) (root : RojoSourcemapNode) :
    Nat → RojoSourcemapNode → String → Option RojoSourcemapNode
  | 0, _, _ => none
  | loopFuel + 1, cursor, name =>
    if cursor.name == name then some cursor
    else if cursor.isRoot then none
    else
      match getDescendant fuel root cursor.parentId with
      | none => none
      | some next => ancestorSearch fuel root loopFuel next name

/-- The component walk of the `Root` branch of `get_file_from_instance_path`
(after the leading service child): `Parent` is rejected, `Child` resolves by
name, `Ancestor` climbs from the parent. -/
def walkComponentsRoot (fuel : Nat) (root : RojoSourcemapNode) :
    RojoSourcemapNode → List InstancePathComponent → Option RojoSourcemapNode
  | node, [] => some node
  | _, .parent :: _ => none
  | node, .child name :: rest =>
    match node.children.find? (fun c => c.name == name) with
    | none => none
    | some c => walkComponentsRoot fuel root c rest
  | node, .ancestor name :: rest =>
    match getDescendant fuel root node.parentId with
    | none => none
    | some start =>
      match ancestorSearch fuel root fuel start name with
      | none => none
      | some a => walkComponentsRoot fuel root a rest

/-- The component walk of the `Script` branch of
`get_file_from_instance_path`: `Parent` climbs via `parent_id`. -/
def walkComponentsScript (fuel : Nat) (root : RojoSourcemapNode) :
    RojoSourcemapNode → List InstancePathComponent → Option RojoSourcemapNode
  | node, [] => some node
  | node, .parent :: rest =>
    match getDescendant fuel root node.parentId with
    | none => none
    | some p => walkComponentsScript fuel root p rest
  | node, .child name :: rest =>
    match node.children.find? (fun c => c.name == name) with
    | none => none
    | some c => walkComponentsScript fuel root c rest
  | node, .ancestor name :: rest =>
    match getDescendant fuel root node.parentId with
    | none => none
    | some start =>
      match ancestorSearch fuel root fuel start name with
      | none => none
      | some a => walkComponentsScript fuel root a rest

/-- `RojoSourcemap::get_file_from_instance_path`. -/
def getFileFromInstancePath (fuel : Nat) (m : RojoSourcemap)
    (fromFile : String) (instancePath : InstancePath) : Option String := do
  let fromNode ← findNode fuel m.rootNode fromFile
  let targetNode ←
    match instancePath.root with
    | .root =>
      match instancePath.components with
      | .child serviceName :: rest => do
        let serviceNode ← m.rootNode.children.find? (fun c => c.name == serviceName)
        walkComponentsRoot fuel m.rootNode serviceNode rest
      | _ => (none : Option RojoSourcemapNode)
    | .script => walkComponentsScript fuel m.rootNode fromNode instancePath.components
  let _ := fromNode
  targetNode.filePaths.head?

/-- `RojoSourcemap::get_absolute_instance_path`: the data-model-rooted path
from the root down to the target node, skipping the root itself. -/
def getAbsoluteInstancePath (fuel : Nat) (m : RojoSourcemap)
    (targetFile : String) : Option InstancePath := do
  let targetNode ← findNode fuel m.rootNode targetFile
  indexDescendants InstancePath.fromRoot m.rootNode
    ((hierarchy fuel m.rootNode targetNode).reverse.drop 1)

/-- The lengths compared by `get_instance_path` when choosing between the
script-rooted and data-model-rooted form: `relative_path_length` (parents
climbed plus descendants walked) and `target_ancestors.len()` (the target
node, its proper ancestors, and the root). -/
def relativeAndTargetLengths (fuel : Nat) (m : RojoSourcemap)
    (fromFile targetFile : String) : Option (Nat × Nat) := do
  let fromNode ← findNode fuel m.rootNode fromFile
  let targetNode ← findNode fuel m.rootNode targetFile
  let fromAncestors := hierarchy fuel m.rootNode fromNode
  let targetAncestors := hierarchy fuel m.rootNode targetNode
  let (fromIndex, targetIndex, _) ←
    findCommonAncestor targetAncestors fromAncestors 0
  some ((fromAncestors.take fromIndex).length +
      (targetAncestors.take targetIndex).length,
    targetAncestors.length)

/-- The manifest of the `from_init_to_sibling_module` test fixture: a
`Project` root backing both `src/init.lua` and `default.project.json`, with
one child `value` backing `src/value.lua`.  Ids are the ones `initialize`
assigns. -/
def manifestProject : RojoSourcemap :=
  RojoSourcemap.ofRootNode
    (.mk "Project" "ModuleScript" ["src/init.lua", "default.project.json"]
      [.mk "value" "ModuleScript" ["src/value.lua"] [] 1 0] 0 0)

/-- A `DataModel` manifest with a service `SA` backing `s.lua` and a service
`SB` whose child `g` backs `g.lua`.  Ids follow `initialize` (the stack pops
the last child first). -/
def manifestDeep : RojoSourcemap :=
  RojoSourcemap.ofRootNode
    (.mk "Root" "DataModel" []
      [.mk "SA" "Folder" ["s.lua"] [] 3 0,
       .mk "SB" "Folder" []
        [.mk "g" "ModuleScript" ["g.lua"] [] 2 1] 1 0] 0 0)

/-- Membership in a manifest tree: `InTree x n` says `x` is `n` or a
descendant of `n`. -/
inductive InTree : RojoSourcemapNode → RojoSourcemapNode → Prop
  | refl (n) : InTree n n
  | child {x c n} : c ∈ n.children → InTree x c → InTree x n

/-- A descending walk: `Descend a l n` says following the successive child
nodes listed in `l` leads from `a` down to `n`. -/
inductive Descend : RojoSourcemapNode → List RojoSourcemapNode → RojoSourcemapNode → Prop
  | nil (a) : Descend a [] a
  | cons {a c l n} : c ∈ a.children → Descend c l n → Descend a (c :: l) n

/-- A rooted chain: the list of nodes from `root` down to `n`, inclusive. -/
inductive NodeChain (root : RojoSourcemapNode) :
    List RojoSourcemapNode → RojoSourcemapNode → Prop
  | refl : NodeChain root [root] root
  | step {l mid c} : NodeChain root l mid → c ∈ mid.children →
      NodeChain root (l ++ [c]) c

theorem list_map_sizeOf_lt (l : List RojoSourcemapNode) :
    (l.map sizeOf).sum < sizeOf l := by
  induction l with
  | nil => simp
  | cons a t ih => simp only [List.map_cons, List.sum_cons, List.cons.sizeOf_spec]; omega

theorem children_weight (n : RojoSourcemapNode) :
    (n.children.map sizeOf).sum + 2 ≤ sizeOf n := by
  cases n with
  | mk nm cls fps c i p =>
    have h := list_map_sizeOf_lt c
    have h3 : 1 ≤ sizeOf nm := by cases nm with | mk d => simp [String.mk.sizeOf_spec]
    simp only [RojoSourcemapNode.children, RojoSourcemapNode.mk.sizeOf_spec]
    omega

theorem node_sizeOf_pos (n : RojoSourcemapNode) : 1 ≤ sizeOf n := by
  cases n with
  | mk nm cls fps c i p =>
    simp only [RojoSourcemapNode.mk.sizeOf_spec]
    omega

theorem child_sizeOf_lt {c n : RojoSourcemapNode} (h : c ∈ n.children) :
    sizeOf c < sizeOf n := by
  have h1 : sizeOf c ≤ (n.children.map sizeOf).sum :=
    List.le_sum_of_mem (List.mem_map_of_mem sizeOf h)
  have h2 := children_weight n
  omega

/-- Fuel-adequacy characterization of the stack iteration: with enough fuel,
`iterNodeGo` emits exactly the members of the subtrees on the stack. -/
theorem mem_iterNodeGo :
    ∀ (fuel : Nat) (stack : List RojoSourcemapNode),
      (stack.map sizeOf).sum ≤ fuel →
      ∀ x, x ∈ iterNodeGo fuel stack ↔ ∃ n ∈ stack, InTree x n := by
  intro fuel
  induction fuel with
  | zero =>
    intro stack h x
    match stack with
    | [] => simp [iterNodeGo]
    | n :: rest =>
      exfalso
      have := node_sizeOf_pos n
      simp only [List.map_cons, List.sum_cons] at h
      omega
  | succ f ih =>
    intro stack h x
    match stack with
    | [] => simp [iterNodeGo]
    | n :: rest =>
      have hweight : ((n.children.reverse ++ rest).map sizeOf).sum ≤ f := by
        have h1 := children_weight n
        have h2 : ((n.children.reverse).map sizeOf).sum = ((n.children).map sizeOf).sum := by
          rw [List.map_reverse, List.sum_reverse]
        simp only [List.map_append, List.sum_append, h2]
        simp only [List.map_cons, List.sum_cons] at h
        omega
      have hih := ih (n.children.reverse ++ rest) hweight x
      simp only [iterNodeGo, List.mem_cons]
      constructor
      · intro hx
        rcases hx with hx | hx
        · exact ⟨n, Or.inl rfl, hx ▸ InTree.refl x⟩
        · rcases hih.mp hx with ⟨m, hm, hxm⟩
          rcases List.mem_append.mp hm with hm | hm
          · exact ⟨n, Or.inl rfl, InTree.child (List.mem_reverse.mp hm) hxm⟩
          · exact ⟨m, Or.inr hm, hxm⟩
      · intro hx
        rcases hx with ⟨m, hm, hxm⟩
        rcases hm with hm | hm
        · subst hm
          cases hxm with
          | refl => exact Or.inl rfl
          | child hc hxc =>
            exact Or.inr (hih.mpr ⟨_, List.mem_append.mpr
              (Or.inl (List.mem_reverse.mpr hc)), hxc⟩)
        · exact Or.inr (hih.mpr ⟨m, List.mem_append.mpr (Or.inr hm), hxm⟩)

/-- With adequate fuel, `iterNode` lists exactly the nodes of the tree. -/
theorem mem_iterNode {fuel : Nat} {root : RojoSourcemapNode}
    (h : sizeOf root ≤ fuel) (x : RojoSourcemapNode) :
    x ∈ iterNode fuel root ↔ InTree x root := by
  rw [iterNode, mem_iterNodeGo fuel [root] (by simpa using h) x]
  constructor
  · rintro ⟨n, hn, hx⟩
    rw [List.mem_singleton] at hn
    exact hn ▸ hx
  · intro hx
    exact ⟨root, List.mem_singleton.mpr rfl, hx⟩

theorem iterNodeGo_length (fuel : Nat) :
    ∀ stack, (iterNodeGo fuel stack).length ≤ fuel := by
  induction fuel with
  | zero => intro stack; simp [iterNodeGo]
  | succ f ih =>
    intro stack
    match stack with
    | [] => simp [iterNodeGo]
    | n :: rest =>
      simp only [iterNodeGo, List.length_cons]
      exact Nat.succ_le_succ (ih _)

theorem InTree.childClosure {c x root : RojoSourcemapNode}
    (hc : c ∈ x.children) (hx : InTree x root) : InTree c root := by
  induction hx with
  | refl => exact InTree.child hc (InTree.refl c)
  | child hm _ ih => exact InTree.child hm ih

theorem InTree.sizeOf_le {x n : RojoSourcemapNode} (h : InTree x n) :
    sizeOf x ≤ sizeOf n := by
  induction h with
  | refl => exact Nat.le_refl _
  | child hc _ ih => exact Nat.le_trans ih (Nat.le_of_lt (child_sizeOf_lt hc))

theorem descend_snoc {a m c : RojoSourcemapNode} {l : List RojoSourcemapNode}
    (h : Descend a l m) (hc : c ∈ m.children) : Descend a (l ++ [c]) c := by
  induction h with
  | nil => exact Descend.cons hc (Descend.nil c)
  | cons hm _ ih => exact Descend.cons hm (ih hc)

theorem descend_inTree {a n root : RojoSourcemapNode} {l : List RojoSourcemapNode}
    (h : Descend a l n) (ha : InTree a root) : InTree n root := by
  induction h with
  | nil => exact ha
  | cons hc _ ih => exact ih (InTree.childClosure hc ha)

theorem descend_mem_inTree {a n x : RojoSourcemapNode} {l : List RojoSourcemapNode}
    (h : Descend a l n) (hx : x ∈ l) : InTree x a := by
  induction h with
  | nil => cases hx
  | cons hc _ ih =>
    rcases List.mem_cons.mp hx with hx | hx
    · exact hx ▸ InTree.child hc (InTree.refl _)
    · exact InTree.child hc (ih hx)

theorem descend_nil_eq {a n : RojoSourcemapNode} (h : Descend a [] n) : n = a := by
  cases h; rfl

theorem descend_target_mem {a n : RojoSourcemapNode} {l : List RojoSourcemapNode}
    (h : Descend a l n) : l = [] ∨ n ∈ l := by
  induction h with
  | nil => exact Or.inl rfl
  | cons hc hd ih =>
    rcases ih with ih | ih
    · subst ih
      cases hd
      exact Or.inr (List.mem_cons_self _ _)
    · exact Or.inr (List.mem_cons_of_mem _ ih)

/-- Splitting a descending walk at a list split. -/
theorem descend_split {a n : RojoSourcemapNode} :
    ∀ {A B : List RojoSourcemapNode}, Descend a (A ++ B) n →
      Descend a A (A.getLastD a) ∧ Descend (A.getLastD a) B n := by
  intro A
  induction A generalizing a with
  | nil => intro B h; exact ⟨Descend.nil a, h⟩
  | cons x A' ih =>
    intro B h
    cases h with
    | cons hc hd =>
      have hsub := ih hd
      constructor
      · rw [List.getLastD_cons]
        exact Descend.cons hc hsub.1
      · rw [List.getLastD_cons]
        exact hsub.2

theorem descend_snoc_inv {a x : RojoSourcemapNode} {l : List RojoSourcemapNode}
    {n : RojoSourcemapNode} (h : Descend a (l ++ [x]) n) :
    n = x ∧ ∃ m, Descend a l m ∧ x ∈ m.children := by
  have hsplit := descend_split (A := l) (B := [x]) h
  rcases hsplit with ⟨h1, h2⟩
  cases h2 with
  | cons hc hd =>
    cases hd
    exact ⟨rfl, l.getLastD a, h1, hc⟩

theorem inTree_descend {x root : RojoSourcemapNode} (h : InTree x root) :
    ∃ l, Descend root l x := by
  induction h with
  | refl => exact ⟨[], Descend.nil _⟩
  | child hc _ ih =>
    rcases ih with ⟨l, hl⟩
    exact ⟨_ :: l, Descend.cons hc hl⟩

/-- Boolean distinctness of a list of numbers. -/
def nodupNat : List Nat → Bool
  | [] => true
  | x :: xs => !(xs.any (fun y => y == x)) && nodupNat xs

/-- Boolean distinctness of a list of strings. -/
def nodupStr : List String → Bool
  | [] => true
  | x :: xs => !(xs.any (fun y => y == x)) && nodupStr xs

theorem nodupNat_nodup : ∀ {l : List Nat}, nodupNat l = true → l.Nodup := by
  intro l
  induction l with
  | nil => intro _; exact List.nodup_nil
  | cons x xs ih =>
    intro h
    simp only [nodupNat, Bool.and_eq_true, Bool.not_eq_true'] at h
    refine List.nodup_cons.mpr ⟨?_, ih h.2⟩
    intro hmem
    have : xs.any (fun y => y == x) = true := List.any_eq_true.mpr ⟨x, hmem, by simp⟩
    rw [h.1] at this
    cases this

theorem nodupStr_nodup : ∀ {l : List String}, nodupStr l = true → l.Nodup := by
  intro l
  induction l with
  | nil => intro _; exact List.nodup_nil
  | cons x xs ih =>
    intro h
    simp only [nodupStr, Bool.and_eq_true, Bool.not_eq_true'] at h
    refine List.nodup_cons.mpr ⟨?_, ih h.2⟩
    intro hmem
    have : xs.any (fun y => y == x) = true := List.any_eq_true.mpr ⟨x, hmem, by simp⟩
    rw [h.1] at this
    cases this

/-- What `RojoSourcemapNode::initialize` guarantees about the manifest:
distinct node ids, each child's `parent_id` equal to its parent's `id`, and
the root being its own parent — together with adequacy of the chosen fuel. -/
structure WfManifest (fuel : Nat) (m : RojoSourcemap) : Prop where
  fuel_big : sizeOf m.rootNode ≤ fuel
  ids_distinct : nodupNat ((iterNode fuel m.rootNode).map (·.nodeId)) = true
  parent_ids : (iterNode fuel m.rootNode).all
      (fun n => n.children.all (fun c => c.parentId == n.nodeId)) = true
  root_self : m.rootNode.parentId = m.rootNode.nodeId

/-- Extra hypothesis for name-based resolution: within every node, the
children carry pairwise distinct names. -/
abbrev SiblingNamesDistinct (fuel : Nat) (m : RojoSourcemap) : Prop :=
  (iterNode fuel m.rootNode).all
    (fun n => nodupStr (n.children.map (·.name))) = true

theorem wf_id_inj {fuel : Nat} {m : RojoSourcemap} (hwf : WfManifest fuel m)
    {x y : RojoSourcemapNode} (hx : InTree x m.rootNode)
    (hy : InTree y m.rootNode) (hid : x.nodeId = y.nodeId) : x = y := by
  have hnd := nodupNat_nodup hwf.ids_distinct
  have hpw : (iterNode fuel m.rootNode).Pairwise (fun a b => a.nodeId ≠ b.nodeId) :=
    List.pairwise_map.mp hnd
  by_contra hne
  have hx' := (mem_iterNode hwf.fuel_big x).mpr hx
  have hy' := (mem_iterNode hwf.fuel_big y).mpr hy
  exact hpw.forall (fun {a b} hab => hab.symm) hx' hy' hne hid

theorem wf_parent {fuel : Nat} {m : RojoSourcemap} (hwf : WfManifest fuel m)
    {n c : RojoSourcemapNode} (hn : InTree n m.rootNode)
    (hc : c ∈ n.children) : c.parentId = n.nodeId := by
  have hall := List.all_eq_true.mp hwf.parent_ids n ((mem_iterNode hwf.fuel_big n).mpr hn)
  have := List.all_eq_true.mp hall c hc
  exact eq_of_beq this

theorem wf_child_ne {fuel : Nat} {m : RojoSourcemap} (hwf : WfManifest fuel m)
    {n c : RojoSourcemapNode} (hn : InTree n m.rootNode)
    (hc : c ∈ n.children) : c.nodeId ≠ n.nodeId := by
  intro h
  have hcn : InTree c m.rootNode := InTree.childClosure hc hn
  have : c = n := wf_id_inj hwf hcn hn h
  subst this
  exact absurd rfl (Nat.ne_of_lt (child_sizeOf_lt hc))

theorem wf_child_not_root {fuel : Nat} {m : RojoSourcemap} (hwf : WfManifest fuel m)
    {n c : RojoSourcemapNode} (hn : InTree n m.rootNode)
    (hc : c ∈ n.children) : c.isRoot = false := by
  rw [RojoSourcemapNode.isRoot, wf_parent hwf hn hc]
  exact beq_eq_false_iff_ne.mpr (wf_child_ne hwf hn hc)

theorem wf_root_isRoot {fuel : Nat} {m : RojoSourcemap} (hwf : WfManifest fuel m) :
    m.rootNode.isRoot = true := by
  rw [RojoSourcemapNode.isRoot, hwf.root_self]
  exact beq_self_eq_true _

theorem getDescendant_eq {fuel : Nat} {m : RojoSourcemap} (hwf : WfManifest fuel m)
    {x : RojoSourcemapNode} (hx : InTree x m.rootNode) :
    getDescendant fuel m.rootNode x.nodeId = some x := by
  rw [getDescendant]
  have hx' := (mem_iterNode hwf.fuel_big x).mpr hx
  cases hfind : (iterNode fuel m.rootNode).find? (fun n => n.nodeId == x.nodeId) with
  | none =>
    exfalso
    have := List.find?_eq_none.mp hfind x hx'
    simp at this
  | some y =>
    have hy := List.find?_some hfind
    have hymem := List.mem_of_find?_eq_some hfind
    have hyT := (mem_iterNode hwf.fuel_big y).mp hymem
    have : y = x := wf_id_inj hwf hyT hx (eq_of_beq hy)
    rw [this]

theorem getChild_eq {fuel : Nat} {m : RojoSourcemap} (hwf : WfManifest fuel m)
    {n c : RojoSourcemapNode} (hn : InTree n m.rootNode)
    (hc : c ∈ n.children) : getChild n c.nodeId = some c := by
  rw [getChild]
  cases hfind : n.children.find? (fun d => d.nodeId == c.nodeId) with
  | none =>
    exfalso
    have := List.find?_eq_none.mp hfind c hc
    simp at this
  | some d =>
    have hd := List.find?_some hfind
    have hdmem := List.mem_of_find?_eq_some hfind
    have hdT : InTree d m.rootNode := InTree.childClosure hdmem hn
    have hcT : InTree c m.rootNode := InTree.childClosure hc hn
    have : d = c := wf_id_inj hwf hdT hcT (eq_of_beq hd)
    rw [this]

theorem childByName_eq {fuel : Nat} {m : RojoSourcemap} (hwf : WfManifest fuel m)
    (hsib : SiblingNamesDistinct fuel m) {n c : RojoSourcemapNode}
    (hn : InTree n m.rootNode) (hc : c ∈ n.children) :
    n.children.find? (fun d => d.name == c.name) = some c := by
  have hnames : nodupStr (n.children.map (·.name)) = true :=
    List.all_eq_true.mp hsib n ((mem_iterNode hwf.fuel_big n).mpr hn)
  have hpw : n.children.Pairwise (fun a b => a.name ≠ b.name) :=
    List.pairwise_map.mp (nodupStr_nodup hnames)
  cases hfind : n.children.find? (fun d => d.name == c.name) with
  | none =>
    exfalso
    have := List.find?_eq_none.mp hfind c hc
    simp at this
  | some d =>
    have hd := List.find?_some hfind
    have hdmem := List.mem_of_find?_eq_some hfind
    by_cases hdc : d = c
    · rw [hdc]
    · exact absurd (eq_of_beq hd) (hpw.forall (fun {a b} hab => hab.symm) hdmem hc hdc)

theorem nodeChain_cons {r c x : RojoSourcemapNode} {l : List RojoSourcemapNode}
    (h : NodeChain c l x) (hc : c ∈ r.children) : NodeChain r (r :: l) x := by
  induction h with
  | refl => exact NodeChain.step NodeChain.refl hc
  | step hch hd ih =>
    rw [← List.cons_append]
    exact NodeChain.step ih hd

theorem inTree_nodeChain {x root : RojoSourcemapNode} (h : InTree x root) :
    ∃ l, NodeChain root l x := by
  induction h with
  | refl => exact ⟨_, NodeChain.refl⟩
  | child hc _ ih =>
    rcases ih with ⟨l, hl⟩
    exact ⟨_, nodeChain_cons hl hc⟩

theorem nodeChain_head {root n : RojoSourcemapNode} {l : List RojoSourcemapNode}
    (h : NodeChain root l n) : ∃ t, l = root :: t := by
  induction h with
  | refl => exact ⟨[], rfl⟩
  | step _ _ ih =>
    rcases ih with ⟨t, ht⟩
    exact ⟨t ++ [_], by rw [ht, List.cons_append]⟩

theorem nodeChain_end_mem {root n : RojoSourcemapNode} {l : List RojoSourcemapNode}
    (h : NodeChain root l n) : n ∈ l := by
  cases h with
  | refl => exact List.mem_singleton.mpr rfl
  | step _ _ => exact List.mem_append.mpr (Or.inr (List.mem_singleton.mpr rfl))

theorem nodeChain_mem {root n : RojoSourcemapNode} {l : List RojoSourcemapNode}
    (h : NodeChain root l n) : ∀ x ∈ l, InTree x root := by
  induction h with
  | refl =>
    intro x hx
    rw [List.mem_singleton] at hx
    exact hx ▸ InTree.refl _
  | step hch hd ih =>
    intro x hx
    rcases List.mem_append.mp hx with hx | hx
    · exact ih x hx
    · rw [List.mem_singleton] at hx
      subst hx
      exact InTree.childClosure hd (ih _ (nodeChain_end_mem hch))

theorem nodeChain_sizes {root n : RojoSourcemapNode} {l : List RojoSourcemapNode}
    (h : NodeChain root l n) :
    l.Pairwise (fun a b => sizeOf b < sizeOf a) ∧ ∀ a ∈ l, sizeOf n ≤ sizeOf a := by
  induction h with
  | refl =>
    refine ⟨List.pairwise_singleton _ _, ?_⟩
    intro a ha
    rw [List.mem_singleton] at ha
    exact ha ▸ Nat.le_refl _
  | step hch hd ih =>
    rcases ih with ⟨hpw, hmin⟩
    constructor
    · rw [List.pairwise_append]
      refine ⟨hpw, List.pairwise_singleton _ _, ?_⟩
      intro a ha b hb
      rw [List.mem_singleton] at hb
      subst hb
      exact Nat.lt_of_lt_of_le (child_sizeOf_lt hd) (hmin a ha)
    · intro a ha
      rcases List.mem_append.mp ha with ha | ha
      · exact Nat.le_trans (Nat.le_of_lt (child_sizeOf_lt hd)) (hmin a ha)
      · rw [List.mem_singleton] at ha
        exact ha ▸ Nat.le_refl _

theorem nodeChain_nodup {root n : RojoSourcemapNode} {l : List RojoSourcemapNode}
    (h : NodeChain root l n) : l.Nodup := by
  refine (nodeChain_sizes h).1.imp ?_
  intro a b hab heq
  subst heq
  exact absurd hab (Nat.lt_irrefl _)

theorem nodeChain_length_le {fuel : Nat} {m : RojoSourcemap}
    (hwf : WfManifest fuel m) {n : RojoSourcemapNode} {l : List RojoSourcemapNode}
    (h : NodeChain m.rootNode l n) : l.length ≤ fuel := by
  have hsub : l ⊆ iterNode fuel m.rootNode := by
    intro x hx
    exact (mem_iterNode hwf.fuel_big x).mpr (nodeChain_mem h x hx)
  have h1 : l.length ≤ (iterNode fuel m.rootNode).length :=
    (List.subperm_of_subset (nodeChain_nodup h) hsub).length_le
  exact Nat.le_trans h1 (iterNodeGo_length fuel _)

theorem nodeChain_descend {root n : RojoSourcemapNode} {l : List RojoSourcemapNode}
    (h : NodeChain root l n) : ∃ t, l = root :: t ∧ Descend root t n := by
  induction h with
  | refl => exact ⟨[], rfl, Descend.nil _⟩
  | step hch hd ih =>
    rcases ih with ⟨t, ht, hdesc⟩
    subst ht
    exact ⟨t ++ [_], by rw [List.cons_append], descend_snoc hdesc hd⟩

theorem descend_nodeChain {root n : RojoSourcemapNode} {t : List RojoSourcemapNode}
    (h : Descend root t n) : NodeChain root (root :: t) n := by
  induction h with
  | nil => exact NodeChain.refl
  | cons hc _ ih => exact nodeChain_cons ih hc

theorem hierarchyGo_spec {fuel : Nat} {m : RojoSourcemap}
    (hwf : WfManifest fuel m) {mid : RojoSourcemapNode}
    {l : List RojoSourcemapNode} (h : NodeChain m.rootNode l mid) :
    ∀ acc loopFuel, l.length ≤ loopFuel →
      hierarchyGo fuel m.rootNode loopFuel mid.nodeId acc =
        acc ++ (l.reverse.map (·.nodeId)) := by
  induction h with
  | refl =>
    intro acc loopFuel hlen
    cases loopFuel with
    | zero => simp at hlen
    | succ lf =>
      rw [hierarchyGo, getDescendant_eq hwf (InTree.refl _)]
      simp only [wf_root_isRoot hwf, if_true, List.reverse_singleton, List.map_cons,
        List.map_nil]
  | @step l' mid' c' hch hd ih =>
    intro acc loopFuel hlen
    have hmidT : InTree mid' m.rootNode := nodeChain_mem hch _ (nodeChain_end_mem hch)
    have hcT : InTree c' m.rootNode := InTree.childClosure hd hmidT
    cases loopFuel with
    | zero => simp at hlen
    | succ lf =>
      rw [hierarchyGo, getDescendant_eq hwf hcT]
      simp only [wf_child_not_root hwf hmidT hd, if_false, Bool.false_eq_true]
      rw [wf_parent hwf hmidT hd]
      have hlf : l'.length ≤ lf := by
        simp only [List.length_append, List.length_cons, List.length_nil] at hlen
        omega
      rw [ih _ lf hlf]
      simp [List.reverse_append]

theorem hierarchy_spec {fuel : Nat} {m : RojoSourcemap}
    (hwf : WfManifest fuel m) {n : RojoSourcemapNode}
    {l : List RojoSourcemapNode} (h : NodeChain m.rootNode l n) :
    hierarchy fuel m.rootNode n = l.reverse.map (·.nodeId) := by
  cases h with
  | refl =>
    rw [hierarchy]
    simp only [wf_root_isRoot hwf, if_true, List.reverse_singleton, List.map_cons,
      List.map_nil]
  | step hch hd =>
    have hmidT : InTree _ m.rootNode := nodeChain_mem hch _ (nodeChain_end_mem hch)
    rw [hierarchy]
    simp only [wf_child_not_root hwf hmidT hd, if_false, Bool.false_eq_true]
    rw [wf_parent hwf hmidT hd]
    rw [hierarchyGo_spec hwf hch _ fuel (nodeChain_length_le hwf hch)]
    simp [List.reverse_append]

theorem findIdxQ_split {p : Nat → Bool} :
    ∀ {l : List Nat} {j s : Nat}, List.findIdx? p l s = some j →
      ∃ Q c S, l = Q ++ c :: S ∧ j = s + Q.length ∧ p c = true ∧
        ∀ y ∈ Q, p y = false := by
  intro l
  induction l with
  | nil => intro j s h; simp [List.findIdx?] at h
  | cons x xs ih =>
    intro j s h
    rw [List.findIdx?_cons] at h
    by_cases hx : p x = true
    · rw [if_pos hx] at h
      cases h
      exact ⟨[], x, xs, rfl, by simp, hx, by simp⟩
    · rw [if_neg hx] at h
      rcases ih h with ⟨Q, c, S, hl, hj, hc, hQ⟩
      refine ⟨x :: Q, c, S, by rw [hl, List.cons_append], by simp [hj]; omega, hc, ?_⟩
      intro y hy
      rcases List.mem_cons.mp hy with hy | hy
      · subst hy; exact Bool.not_eq_true _ ▸ (by simpa using hx)
      · exact hQ y hy

theorem findIdxQ_exists {p : Nat → Bool} :
    ∀ {l : List Nat}, (∃ x ∈ l, p x = true) →
      ∀ s, (List.findIdx? p l s).isSome = true := by
  intro l
  induction l with
  | nil => rintro ⟨x, hx, _⟩; cases hx
  | cons a xs ih =>
    rintro ⟨x, hx, hpx⟩ s
    rw [List.findIdx?_cons]
    by_cases ha : p a = true
    · rw [if_pos ha]; rfl
    · rw [if_neg ha]
      rcases List.mem_cons.mp hx with hx | hx
      · exact absurd (hx ▸ hpx) ha
      · exact ih ⟨x, hx, hpx⟩ (s + 1)

theorem fca_split {targetA : List Nat} :
    ∀ {fromA : List Nat} {s i j c : Nat},
      findCommonAncestor targetA fromA s = some (i, j, c) →
      ∃ P R, fromA = P ++ c :: R ∧ i = s + P.length ∧
        (∀ x ∈ P, x ∉ targetA) ∧
        List.findIdx? (fun y => y == c) targetA 0 = some j := by
  intro fromA
  induction fromA with
  | nil => intro s i j c h; simp [findCommonAncestor] at h
  | cons a rest ih =>
    intro s i j c h
    rw [findCommonAncestor] at h
    cases hidx : List.findIdx? (fun y => y == a) targetA 0 with
    | some tj =>
      rw [hidx] at h
      cases h
      refine ⟨[], rest, rfl, by simp, by simp, hidx⟩
    | none =>
      rw [hidx] at h
      rcases ih h with ⟨P, R, hl, hi, hP, hj⟩
      refine ⟨a :: P, R, by rw [hl, List.cons_append], by simp [hi]; omega, ?_, hj⟩
      intro x hx
      rcases List.mem_cons.mp hx with hx | hx
      · subst hx
        intro hmem
        have := List.findIdx?_eq_none_iff.mp hidx
        have hx2 := this x hmem
        simp at hx2
      · exact hP x hx

theorem fca_exists {targetA : List Nat} :
    ∀ {fromA : List Nat}, (∃ a ∈ fromA, a ∈ targetA) →
      ∀ s, (findCommonAncestor targetA fromA s).isSome = true := by
  intro fromA
  induction fromA with
  | nil => rintro ⟨a, ha, _⟩; cases ha
  | cons x rest ih =>
    rintro ⟨a, ha, hmem⟩ s
    rw [findCommonAncestor]
    cases hidx : List.findIdx? (fun y => y == x) targetA 0 with
    | some tj => rfl
    | none =>
      rcases List.mem_cons.mp ha with ha | ha
      · exfalso
        subst ha
        have := List.findIdx?_eq_none_iff.mp hidx a hmem
        simp at this
      · exact ih ⟨a, ha, hmem⟩ (s + 1)

theorem map_split {α β : Type} {f : α → β} :
    ∀ {A : List β} {l : List α} {b : β} {B : List β},
      l.map f = A ++ b :: B →
      ∃ lA x lB, l = lA ++ x :: lB ∧ lA.map f = A ∧ f x = b ∧ lB.map f = B := by
  intro A
  induction A with
  | nil =>
    intro l b B h
    match l with
    | [] => simp at h
    | x :: xs =>
      simp only [List.map_cons, List.nil_append] at h
      exact ⟨[], x, xs, rfl, rfl, (List.cons.injEq _ _ _ _ ▸ h).1,
        (List.cons.injEq _ _ _ _ ▸ h).2⟩
  | cons a A' ih =>
    intro l b B h
    match l with
    | [] => simp at h
    | x :: xs =>
      simp only [List.map_cons, List.cons_append, List.cons.injEq] at h
      rcases ih h.2 with ⟨lA, y, lB, hxs, hA, hb, hB⟩
      exact ⟨x :: lA, y, lB, by rw [hxs, List.cons_append], by simp [hA, h.1], hb, hB⟩

theorem indexDescendants_spec {fuel : Nat} {m : RojoSourcemap}
    (hwf : WfManifest fuel m) {a n : RojoSourcemapNode}
    {seg : List RojoSourcemapNode} (h : Descend a seg n)
    (ha : InTree a m.rootNode) :
    ∀ p, indexDescendants p a (seg.map (·.nodeId)) =
      some { p with components :=
        p.components ++ seg.map (fun x => .child x.name) } := by
  induction h with
  | nil => intro p; simp [indexDescendants]
  | @cons a' c l n' hc hd ih =>
    intro p
    simp only [List.map_cons, indexDescendants, getChild_eq hwf ha hc]
    rw [ih (InTree.childClosure hc ha) (p.child c.name)]
    simp [InstancePath.child, List.append_assoc]

theorem indexDescendants_shape :
    ∀ {ids : List Nat} {p : InstancePath} {node : RojoSourcemapNode}
      {q : InstancePath}, indexDescendants p node ids = some q →
      q.root = p.root ∧ ∃ extra, q.components = p.components ++ extra ∧
        (∀ comp ∈ extra, ∃ nm, comp = InstancePathComponent.child nm) ∧
        extra.length = ids.length := by
  intro ids
  induction ids with
  | nil =>
    intro p node q h
    simp only [indexDescendants, Option.some.injEq] at h
    subst h
    exact ⟨rfl, [], by simp, by simp, rfl⟩
  | cons i rest ih =>
    intro p node q h
    simp only [indexDescendants] at h
    cases hchild : getChild node i with
    | none => rw [hchild] at h; cases h
    | some c =>
      rw [hchild] at h
      rcases ih h with ⟨hroot, extra, hcomp, hkinds, hlen⟩
      refine ⟨hroot, InstancePathComponent.child c.name :: extra, ?_, ?_, by simp [hlen]⟩
      · rw [hcomp]
        simp [InstancePath.child, List.append_assoc]
      · intro comp hcm
        rcases List.mem_cons.mp hcm with hcm | hcm
        · exact ⟨c.name, hcm⟩
        · exact hkinds comp hcm

theorem walk_down_script {fuel : Nat} {m : RojoSourcemap}
    (hwf : WfManifest fuel m) (hsib : SiblingNamesDistinct fuel m)
    {a n : RojoSourcemapNode} {seg : List RojoSourcemapNode}
    (h : Descend a seg n) (ha : InTree a m.rootNode) :
    ∀ rest, walkComponentsScript fuel m.rootNode a
        (seg.map (fun x => .child x.name) ++ rest) =
      walkComponentsScript fuel m.rootNode n rest := by
  induction h with
  | nil => intro rest; rfl
  | @cons a' c l n' hc hd ih =>
    intro rest
    simp only [List.map_cons, List.cons_append, walkComponentsScript]
    rw [childByName_eq hwf hsib ha hc]
    exact ih (InTree.childClosure hc ha) rest

theorem walk_down_root {fuel : Nat} {m : RojoSourcemap}
    (hwf : WfManifest fuel m) (hsib : SiblingNamesDistinct fuel m)
    {a n : RojoSourcemapNode} {seg : List RojoSourcemapNode}
    (h : Descend a seg n) (ha : InTree a m.rootNode) :
    walkComponentsRoot fuel m.rootNode a
        (seg.map (fun x => .child x.name)) = some n := by
  induction h with
  | nil => rfl
  | @cons a' c l n' hc hd ih =>
    simp only [List.map_cons, walkComponentsRoot]
    rw [childByName_eq hwf hsib ha hc]
    exact ih (InTree.childClosure hc ha)

theorem walk_up_script {fuel : Nat} {m : RojoSourcemap}
    (hwf : WfManifest fuel m) {a : RojoSourcemapNode}
    (ha : InTree a m.rootNode) :
    ∀ (seg : List RojoSourcemapNode) (x : RojoSourcemapNode), Descend a seg x →
      ∀ rest, walkComponentsScript fuel m.rootNode x
          (List.replicate seg.length .parent ++ rest) =
        walkComponentsScript fuel m.rootNode a rest := by
  intro seg
  induction seg using List.reverseRecOn with
  | nil =>
    intro x h rest
    rw [descend_nil_eq h]
    rfl
  | append_singleton seg' y ih =>
    intro x h rest
    rcases descend_snoc_inv h with ⟨hx, mm, hdm, hy⟩
    have hmmT : InTree mm m.rootNode := descend_inTree hdm ha
    have hx2 : List.replicate (seg' ++ [y]).length InstancePathComponent.parent =
        InstancePathComponent.parent :: List.replicate seg'.length .parent := by
      simp [List.replicate_succ]
    rw [hx, hx2]
    simp only [List.cons_append, walkComponentsScript]
    rw [wf_parent hwf hmmT hy, getDescendant_eq hwf hmmT]
    exact ih mm hdm rest

end Rojo

namespace Rojo

theorem nodeChain_reverse_split {root n c : RojoSourcemapNode}
    {l A B : List RojoSourcemapNode} (h : NodeChain root l n)
    (hsplit : l.reverse = A ++ c :: B) : Descend c A.reverse n := by
  obtain ⟨t, hlt, hdesc⟩ := nodeChain_descend h
  have hl : l = (B.reverse ++ [c]) ++ A.reverse := by
    have h2 := congrArg List.reverse hsplit
    rw [List.reverse_reverse] at h2
    rw [h2]
    simp [List.reverse_append]
  cases hBrc : B.reverse ++ [c] with
  | nil => simp at hBrc
  | cons h0 tail1 =>
    rw [hBrc, hlt, List.cons_append] at hl
    have hh0 : root = h0 := (List.cons.injEq _ _ _ _ ▸ hl).1
    have ht : t = tail1 ++ A.reverse := (List.cons.injEq _ _ _ _ ▸ hl).2
    have hlast : tail1.getLastD root = c := by
      have e1 : (h0 :: tail1).getLast? = some c := by
        rw [← hBrc]
        exact List.getLast?_concat _
      rw [List.getLast?_cons] at e1
      have e2 : tail1.getLast?.getD h0 = c := Option.some.inj e1
      rw [List.getLastD_eq_getLast?, hh0, e2]
    have := descend_split (A := tail1) (B := A.reverse) (ht ▸ hdesc)
    rw [hlast] at this
    exact this.2

theorem resolve_script {fuel : Nat} {m : RojoSourcemap}
    (hwf : WfManifest fuel m) (hsib : SiblingNamesDistinct fuel m)
    {F G : String} {nf ng cn : RojoSourcemapNode}
    {Pn Qn : List RojoSourcemapNode}
    (h1 : findNode fuel m.rootNode F = some nf)
    (hup : Descend cn Pn nf) (hdown : Descend cn Qn ng)
    (hcnT : InTree cn m.rootNode)
    (h3 : ng.filePaths.head? = some G) :
    getFileFromInstancePath fuel m F
      ⟨.script, List.replicate Pn.length .parent ++
        Qn.map (fun x => .child x.name)⟩ = some G := by
  simp only [getFileFromInstancePath, h1, Option.some_bind, Option.bind_eq_bind]
  rw [walk_up_script hwf hcnT Pn nf hup]
  have h5 := walk_down_script hwf hsib hdown hcnT []
  rw [List.append_nil] at h5
  rw [h5]
  simp only [walkComponentsScript, Option.some_bind]
  exact h3

theorem resolve_root {fuel : Nat} {m : RojoSourcemap}
    (hwf : WfManifest fuel m) (hsib : SiblingNamesDistinct fuel m)
    {F G : String} {nf ng c0 : RojoSourcemapNode}
    {t' : List RojoSourcemapNode}
    (h1 : findNode fuel m.rootNode F = some nf)
    (hc0 : c0 ∈ m.rootNode.children) (hdown : Descend c0 t' ng)
    (h3 : ng.filePaths.head? = some G) :
    getFileFromInstancePath fuel m F
      ⟨.root, (c0 :: t').map (fun x => .child x.name)⟩ = some G := by
  simp only [getFileFromInstancePath, h1, Option.some_bind, Option.bind_eq_bind,
    List.map_cons]
  rw [childByName_eq hwf hsib (InTree.refl _) hc0]
  simp only [Option.some_bind]
  rw [walk_down_root hwf hsib hdown (InTree.childClosure hc0 (InTree.refl _))]
  simp only [Option.some_bind]
  exact h3

end Rojo

namespace Rojo

/-- C1 (amended): for every instance manifest whose ids are well-formed (as
`initialize` assigns them, with adequate fuel) and whose sibling names are
pairwise distinct, and for registered files `F` and `G` such that `G` is the
FIRST file path of the node found for `G` (and, when the manifest root is a
`DataModel`, that node is not the root), resolving the instance path
computed from `F` to `G` back to a file from `F` returns exactly `G`.  The
original claim quantified over every registered pair; it fails when `G` is
a secondary file path of its node (see the counterexample), so the
round-trip holds only under the first-file-path hypothesis (together with
the listed manifest well-formedness conditions that name- and id-based
lookup need). -/
theorem C1_roundtrip_amended {fuel : Nat} {m : RojoSourcemap}
    (hwf : WfManifest fuel m) (hsib : SiblingNamesDistinct fuel m)
    {F G : String} {nf ng : RojoSourcemapNode}
    (h1 : findNode fuel m.rootNode F = some nf)
    (h2 : findNode fuel m.rootNode G = some ng)
    (h3 : ng.filePaths.head? = some G)
    (h4 : m.isDatamodel = true → ng.isRoot = false) :
    (getInstancePath fuel m F G).bind (getFileFromInstancePath fuel m F) =
      some G := by
  have hnfT : InTree nf m.rootNode :=
    (mem_iterNode hwf.fuel_big nf).mp (List.mem_of_find?_eq_some h1)
  have hngT : InTree ng m.rootNode :=
    (mem_iterNode hwf.fuel_big ng).mp (List.mem_of_find?_eq_some h2)
  obtain ⟨lf, hlf⟩ := inTree_nodeChain hnfT
  obtain ⟨lt, hlt⟩ := inTree_nodeChain hngT
  have hfA : hierarchy fuel m.rootNode nf = lf.reverse.map (·.nodeId) :=
    hierarchy_spec hwf hlf
  have htA : hierarchy fuel m.rootNode ng = lt.reverse.map (·.nodeId) :=
    hierarchy_spec hwf hlt
  obtain ⟨tf, htf⟩ := nodeChain_head hlf
  obtain ⟨tt, htt⟩ := nodeChain_head hlt
  have hrootf : m.rootNode.nodeId ∈ lf.reverse.map (·.nodeId) :=
    List.mem_map_of_mem _ (List.mem_reverse.mpr (htf ▸ List.mem_cons_self _ _))
  have hroott : m.rootNode.nodeId ∈ lt.reverse.map (·.nodeId) :=
    List.mem_map_of_mem _ (List.mem_reverse.mpr (htt ▸ List.mem_cons_self _ _))
  have hex := @fca_exists (lt.reverse.map (·.nodeId))
    (lf.reverse.map (·.nodeId)) ⟨_, hrootf, hroott⟩ 0
  obtain ⟨⟨i, j, cid⟩, hfca⟩ := Option.isSome_iff_exists.mp hex
  obtain ⟨P, R, hfsplit, hi, hPnot, hidx⟩ := fca_split hfca
  obtain ⟨Q, cy, S, htsplit, hj, hcy, hQnot⟩ := findIdxQ_split hidx
  have hcyeq : cy = cid := eq_of_beq hcy
  rw [hcyeq] at htsplit
  obtain ⟨PnR, cnf, RnR, hUf, hPmap, hcnfid, hRmap⟩ := map_split hfsplit
  obtain ⟨QnR, cnt, SnR, hUt, hQmap, hcntid, hSmap⟩ := map_split htsplit
  have hcnfT : InTree cnf m.rootNode :=
    nodeChain_mem hlf _ (List.mem_reverse.mp
      (hUf ▸ List.mem_append.mpr (Or.inr (List.mem_cons_self _ _))))
  have hcntT : InTree cnt m.rootNode :=
    nodeChain_mem hlt _ (List.mem_reverse.mp
      (hUt ▸ List.mem_append.mpr (Or.inr (List.mem_cons_self _ _))))
  have hceq : cnt = cnf := wf_id_inj hwf hcntT hcnfT (by rw [hcntid, hcnfid])
  have hup : Descend cnf PnR.reverse nf := nodeChain_reverse_split hlf hUf
  have hdown : Descend cnf QnR.reverse ng := by
    have := nodeChain_reverse_split hlt hUt
    rwa [hceq] at this
  obtain ⟨tt', htt', hdesc_t⟩ := nodeChain_descend hlt
  have htake_f : (lf.reverse.map (·.nodeId)).take i = P := by
    rw [hfsplit, hi, Nat.zero_add]
    exact List.take_left P _
  have htake_t : (lt.reverse.map (·.nodeId)).take j = Q := by
    rw [htsplit, hj, Nat.zero_add]
    exact List.take_left Q _
  have hlen_t : (lt.reverse.map (·.nodeId)).length = Q.length + S.length + 1 := by
    rw [htsplit]
    simp
    omega
  have hQrev : Q.reverse = QnR.reverse.map (·.nodeId) := by
    rw [← hQmap, List.map_reverse]
  have hPlen : P.length = PnR.reverse.length := by
    rw [← hPmap]
    simp
  simp only [getInstancePath, h1, h2, Option.bind_eq_bind, Option.some_bind,
    hfA, htA, hfca, htake_f, htake_t, hlen_t]
  by_cases hcond : (!m.isDatamodel ||
      decide (P.length + Q.length ≤ Q.length + S.length + 1)) = true
  · rw [if_pos hcond]
    rw [show cid = cnf.nodeId from hcnfid.symm, getDescendant_eq hwf hcnfT]
    simp only [Option.some_bind]
    rw [hQrev, indexDescendants_spec hwf hdown hcnfT]
    simp only [Option.some_bind, InstancePath.addParents, InstancePath.fromScript]
    simp only [List.nil_append]
    rw [hPlen]
    exact resolve_script hwf hsib h1 hup hdown hcnfT h3
  · rw [if_neg hcond]
    have hdm : m.isDatamodel = true := by
      cases hdmv : m.isDatamodel with
      | true => rfl
      | false => exact absurd (by rw [hdmv]; rfl) hcond
    have hrevdrop : ((lt.reverse.map (·.nodeId)).reverse.drop 1) =
        tt'.map (·.nodeId) := by
      rw [← List.map_reverse, List.reverse_reverse, htt']
      simp
    rw [hrevdrop]
    cases htt'' : tt' with
    | nil =>
      exfalso
      rw [htt''] at hdesc_t
      have : ng = m.rootNode := descend_nil_eq hdesc_t
      have hngroot : ng.isRoot = true := by rw [this]; exact wf_root_isRoot hwf
      rw [h4 hdm] at hngroot
      cases hngroot
    | cons c0 t2 =>
      rw [htt''] at hdesc_t
      cases hdesc_t with
      | cons hc0 hdt2 =>
        rw [indexDescendants_spec hwf (Descend.cons hc0 hdt2) (InTree.refl _)]
        simp only [Option.some_bind, InstancePath.fromRoot, List.nil_append]
        exact resolve_root hwf hsib h1 hc0 hdt2 h3

end Rojo

namespace Rojo

/-- C1 (counterexample): in the `Project` test manifest, both
`src/value.lua` and `default.project.json` are registered (the latter as the
root's second file path), yet the round trip from `src/value.lua` to
`default.project.json` resolves to `src/init.lua`, not to
`default.project.json`: `get_file_from_instance_path` returns the FIRST
file path of the resolved node. -/
theorem C1_roundtrip_counterexample :
    (findNode 100000 manifestProject.rootNode "src/value.lua").isSome = true ∧
    (findNode 100000 manifestProject.rootNode "default.project.json").isSome = true ∧
    (getInstancePath 100000 manifestProject "src/value.lua"
        "default.project.json").bind
      (getFileFromInstancePath 100000 manifestProject "src/value.lua") =
      some "src/init.lua" ∧
    ((getInstancePath 100000 manifestProject "src/value.lua"
        "default.project.json").bind
      (getFileFromInstancePath 100000 manifestProject "src/value.lua") ≠
      some "default.project.json") := by
  refine ⟨by decide, by decide, by decide, by decide⟩

/-- C1 (witness): the amended round-trip theorem applied to the `Project`
manifest, from `src/init.lua` to `src/value.lua`. -/
theorem C1_roundtrip_amended_witness :
    (getInstancePath 100000 manifestProject "src/init.lua" "src/value.lua").bind
      (getFileFromInstancePath 100000 manifestProject "src/init.lua") =
      some "src/value.lua" := by
  exact @C1_roundtrip_amended 100000 manifestProject
    ⟨by decide, by decide, by decide, by decide⟩ (by decide)
    "src/init.lua" "src/value.lua" manifestProject.rootNode
    (RojoSourcemapNode.mk "value" "ModuleScript" ["src/value.lua"] [] 1 0)
    (by rfl) (by rfl) (by decide) (by decide)

end Rojo

namespace Rojo

/-- C5 (amended): the result of `get_instance_path` is script-rooted exactly
when the manifest is not a `DataModel` or the script-relative length
(parents climbed plus descendants walked) is at most the LENGTH OF THE
TARGET'S ANCESTOR HIERARCHY (the target node, its proper ancestors and the
root, i.e. the data-model depth plus one) — not, as the original claim
stated, when it is strictly shorter than the data-model-rooted distance.
Otherwise the result is data-model-rooted and skips the root node: every
component is a child step and there is one component per hierarchy entry
except the root. -/
theorem C5_branch_condition_amended {fuel : Nat} {m : RojoSourcemap}
    {F G : String} {p : InstancePath}
    (h : getInstancePath fuel m F G = some p) :
    ∃ rel tlen, relativeAndTargetLengths fuel m F G = some (rel, tlen) ∧
      ((p.root = .script) ↔ (m.isDatamodel = false ∨ rel ≤ tlen)) ∧
      (p.root = .root → m.isDatamodel = true ∧ tlen < rel ∧
        (∀ comp ∈ p.components, ∃ nm, comp = InstancePathComponent.child nm) ∧
        p.components.length = tlen - 1) := by
  simp only [getInstancePath, Option.bind_eq_bind] at h
  cases h1 : findNode fuel m.rootNode F with
  | none => rw [h1] at h; simp at h
  | some nf =>
  rw [h1] at h
  simp only [Option.some_bind] at h
  cases h2 : findNode fuel m.rootNode G with
  | none => rw [h2] at h; simp at h
  | some ng =>
  rw [h2] at h
  simp only [Option.some_bind] at h
  cases hfca : findCommonAncestor (hierarchy fuel m.rootNode ng)
      (hierarchy fuel m.rootNode nf) 0 with
  | none => rw [hfca] at h; simp at h
  | some v =>
  obtain ⟨i, j, cid⟩ := v
  rw [hfca] at h
  simp only [Option.some_bind] at h
  refine ⟨(List.take i (hierarchy fuel m.rootNode nf)).length +
      (List.take j (hierarchy fuel m.rootNode ng)).length,
    (hierarchy fuel m.rootNode ng).length, ?_, ?_⟩
  · simp only [relativeAndTargetLengths, Option.bind_eq_bind, h1,
      Option.some_bind, h2, hfca]
  · by_cases hcond : (!m.isDatamodel ||
        decide (((hierarchy fuel m.rootNode nf).take i).length +
          ((hierarchy fuel m.rootNode ng).take j).length ≤
            (hierarchy fuel m.rootNode ng).length)) = true
    · rw [if_pos hcond] at h
      cases hgd : getDescendant fuel m.rootNode cid with
      | none => rw [hgd] at h; simp at h
      | some ca =>
        rw [hgd] at h
        simp only [Option.some_bind] at h
        have hshape := indexDescendants_shape h
        have hroot : p.root = .script := by
          rw [hshape.1]
          rfl
        simp only [Bool.or_eq_true, Bool.not_eq_true', decide_eq_true_eq] at hcond
        constructor
        · constructor
          · intro _
            exact hcond
          · intro _
            exact hroot
        · intro hr
          rw [hroot] at hr
          cases hr
    · rw [if_neg hcond] at h
      have hshape := indexDescendants_shape h
      have hroot : p.root = .root := by
        rw [hshape.1]
        rfl
      simp only [Bool.or_eq_true, Bool.not_eq_true', decide_eq_true_eq,
        not_or, Bool.not_eq_false] at hcond
      constructor
      · constructor
        · intro hs
          rw [hroot] at hs
          cases hs
        · intro hor
          rcases hor with hdm | hle
          · rw [hcond.1] at hdm
            cases hdm
          · exact absurd hle hcond.2
      · intro _
        rcases hshape with ⟨_, extra, hcomp, hkinds, hlen⟩
        refine ⟨hcond.1, Nat.lt_of_not_le hcond.2, ?_, ?_⟩
        · intro comp hcm
          rw [hcomp] at hcm
          simp only [InstancePath.fromRoot, List.nil_append] at hcm
          exact hkinds comp hcm
        · rw [hcomp]
          simp only [InstancePath.fromRoot, List.nil_append]
          rw [hlen]
          simp

/-- C5 (counterexample): in the `DataModel` manifest `manifestDeep`, from
`s.lua` (a direct service child) to `g.lua` (inside another service), the
script-relative distance is 3 (one parent plus two descendants) and the
data-model-rooted path has 2 components (the hierarchy of `g.lua` has 3
entries).  3 is not strictly shorter than 2 (nor than 3), so the claim
requires a data-model-rooted result, but the code computes a script-rooted
path. -/
theorem C5_branch_condition_counterexample :
    relativeAndTargetLengths 100000 manifestDeep "s.lua" "g.lua" =
      some (3, 3) ∧
    manifestDeep.isDatamodel = true ∧
    (∃ q, getAbsoluteInstancePath 100000 manifestDeep "g.lua" = some q ∧
      q.components.length = 2) ∧
    ¬ ((3 : Nat) < 2) ∧ ¬ ((3 : Nat) < 3) ∧
    ∃ p, getInstancePath 100000 manifestDeep "s.lua" "g.lua" = some p ∧
      p.root = InstancePathRoot.script := by
  refine ⟨by decide, by decide,
    ⟨⟨.root, [.child "SB", .child "g"]⟩, by decide, by decide⟩,
    by decide, by decide,
    ⟨⟨.script, [.parent, .child "SB", .child "g"]⟩, by decide, by decide⟩⟩

/-- C5 (witness): the amended branch-condition theorem applied to
`manifestDeep` from `s.lua` to `g.lua`. -/
theorem C5_branch_condition_amended_witness :
    ∃ rel tlen, relativeAndTargetLengths 100000 manifestDeep "s.lua" "g.lua" =
        some (rel, tlen) ∧
      ((InstancePath.mk .script [.parent, .child "SB", .child "g"]).root =
          .script ↔ (manifestDeep.isDatamodel = false ∨ rel ≤ tlen)) ∧
      ((InstancePath.mk .script [.parent, .child "SB", .child "g"]).root =
          .root → manifestDeep.isDatamodel = true ∧ tlen < rel ∧
        (∀ comp ∈ (InstancePath.mk .script
            [.parent, .child "SB", .child "g"]).components,
          ∃ nm, comp = InstancePathComponent.child nm) ∧
        (InstancePath.mk .script
            [.parent, .child "SB", .child "g"]).components.length = tlen - 1) :=
  C5_branch_condition_amended (by decide)

end Rojo

namespace CE

/-- Modelled from the spec: the `Token` type of the node model (it lives in
the node crate outside `src/`): literal content, optional line number,
optional source id, and ordered leading/trailing trivia (kept as plain
strings here). -/
structure Token where
  content : String
  lineNumber : Option Nat
  sourceId : Option Nat
  leadingTrivia : List String
  trailingTrivia : List String
deriving DecidableEq, Repr

/-- `Token::from_content_with_origin`: a fresh token carrying the given
line and source id and no trivia. -/
def Token.fromContentWithOrigin (content : String) (line : Nat)
    (sourceId : Nat) : Token :=
  ⟨content, some line, some sourceId, [], []⟩

/-- The binary operators needed by the compute-expression claims. -/
inductive BinaryOperator where
  | plus
  | andOp
  | orOp
deriving DecidableEq, Repr

/-- The unary operators needed by the compute-expression claims. -/
inductive UnaryOperator where
  | notOp
  | minusOp
deriving DecidableEq, Repr

/-- The fragment of the `Expression` node union that the compute-expression
rule distinguishes.  Numbers are modelled as integers (the claims only fold
small integer arithmetic); `call` stands for any function/method call. -/
inductive Expression where
  | nilE (token : Option Token)
  | trueE (token : Option Token)
  | falseE (token : Option Token)
  | number (value : Int) (token : Option Token)
  | str (value : String) (token : Option Token)
  | variableArguments (token : Option Token)
  | identifier (name : String) (token : Option Token)
  | binary (op : BinaryOperator) (left right : Expression) (token : Option Token)
  | unary (op : UnaryOperator) (sub : Expression) (token : Option Token)
  | ifExpr (cond thenExpr elseExpr : Expression) (ifToken : Option Token)
  | call (tag : String)
deriving DecidableEq, Repr

/-- Modelled from the spec (§4.2): the evaluator's value lattice. -/
inductive LuaValue where
  | unknown
  | nilV
  | boolV (b : Bool)
  | numberV (n : Int)
  | strV (s : String)
deriving DecidableEq, Repr

/-- `is_truthy`: `none` when truthiness is not decidable, otherwise the Lua
truthiness (only `nil` and `false` are falsy). -/
def LuaValue.isTruthy : LuaValue → Option Bool
  | .unknown => none
  | .nilV => some false
  | .boolV b => some b
  | .numberV _ => some true
  | .strV _ => some true

/-- `to_expression`: literal expression for a known value (fresh nodes carry
no token). -/
def LuaValue.toExpression : LuaValue → Option Expression
  | .unknown => none
  | .nilV => some (.nilE none)
  | .boolV true => some (.trueE none)
  | .boolV false => some (.falseE none)
  | .numberV n => some (.number n none)
  | .strV s => some (.str s none)

/-- Modelled from the spec (§4.2): `has_side_effects` — identifiers and
calls default to side-effectful, compound expressions are componentwise. -/
def hasSideEffects : Expression → Bool
  | .identifier _ _ => true
  | .call _ => true
  | .binary _ l r _ => hasSideEffects l || hasSideEffects r
  | .unary _ e _ => hasSideEffects e
  | .ifExpr c t e _ => hasSideEffects c || hasSideEffects t || hasSideEffects e
  | _ => false

/-- Modelled from the spec (§4.2): the evaluator — componentwise with
short-circuit on `and`/`or`. -/
def evaluate : Expression → LuaValue
  | .nilE _ => .nilV
  | .trueE _ => .boolV true
  | .falseE _ => .boolV false
  | .number n _ => .numberV n
  | .str s _ => .strV s
  | .binary op l r _ =>
    match op with
    | .plus =>
      match evaluate l, evaluate r with
      | .numberV a, .numberV b => .numberV (a + b)
      | _, _ => .unknown
    | .andOp =>
      match (evaluate l).isTruthy with
      | none => .unknown
      | some true => evaluate r
      | some false => evaluate l
    | .orOp =>
      match (evaluate l).isTruthy with
      | none => .unknown
      | some true => evaluate l
      | some false => evaluate r
  | .unary op e _ =>
    match op with
    | .notOp =>
      match (evaluate e).isTruthy with
      | none => .unknown
      | some b => .boolV (!b)
    | .minusOp =>
      match evaluate e with
      | .numberV n => .numberV (-n)
      | _ => .unknown
  | .ifExpr c t e _ =>
    match (evaluate c).isTruthy with
    | none => .unknown
    | some true => evaluate t
    | some false => evaluate e
  | .variableArguments _ => .unknown
  | .identifier _ _ => .unknown
  | .call _ => .unknown

/-- `OriginAnchor` from `utils/origin.rs`. -/
structure OriginAnchor where
  lineNumber : Nat
  sourceId : Nat
deriving DecidableEq, Repr

/-- `OriginAnchor::from_token`. -/
def OriginAnchor.fromToken (t : Token) : Option OriginAnchor :=
  match t.lineNumber, t.sourceId with
  | some l, some s => some ⟨l, s⟩
  | _, _ => none

/-- `anchor_from_expression` from `utils/origin.rs`. -/
def anchorFromExpression : Expression → Option OriginAnchor
  | .identifier _ t => t.bind OriginAnchor.fromToken
  | .number _ t => t.bind OriginAnchor.fromToken
  | .str _ t => t.bind OriginAnchor.fromToken
  | .unary _ _ t => t.bind OriginAnchor.fromToken
  | .binary _ _ _ t => t.bind OriginAnchor.fromToken
  | .ifExpr _ _ _ t => t.bind OriginAnchor.fromToken
  | _ => none

/-- `token_from_content_with_anchor` from `utils/origin.rs`. -/
def tokenFromContentWithAnchor (content : String) (anchor : OriginAnchor) :
    Token :=
  Token.fromContentWithOrigin content anchor.lineNumber anchor.sourceId

/-- Modelled from the spec: the generator's `write_number` (outside `src/`);
for the integral numbers of this model it prints the decimal value. -/
def writeNumber (n : Int) : String := toString n

/-- Modelled from the spec: the generator's `write_string` (outside
`src/`). -/
def writeString (s : String) : String := "\"" ++ s ++ "\""

/-- `Computer::replace_with` from `compute_expression.rs`, parameterized by
the recursive `process_expression` call used in the short-circuit branch of
the side-effect-free case. -/
def replaceWithAux (recur : Expression → Expression) (e : Expression) :
    Option Expression :=
  match e with
  | .unary _ _ _ =>
    if !(hasSideEffects e) then (evaluate e).toExpression else none
  | .binary op left right _ =>
    if !(hasSideEffects e) then
      ((evaluate e).toExpression).orElse (fun _ =>
        (match op with
         | .andOp =>
           ((evaluate left).isTruthy).map (fun t => if t = true then right else left)
         | .orOp =>
           ((evaluate left).isTruthy).map (fun t => if t = true then left else right)
         | _ => none).map recur)
    else
      match op with
      | .andOp =>
        if !(hasSideEffects left) then
          ((evaluate left).isTruthy).map (fun t => if t = true then right else left)
        else none
      | .orOp =>
        if !(hasSideEffects left) then
          ((evaluate left).isTruthy).map (fun t => if t = true then left else right)
        else none
      | _ => none
  | .ifExpr _ _ _ _ =>
    if !(hasSideEffects e) then (evaluate e).toExpression else none
  | _ => none

/-- The token-setting block of `Computer::process_expression`: literal
replacements receive a token built from the anchor (numbers and strings
only when they carry none). -/
def applyAnchor (replacement : Expression) (anchor : OriginAnchor) :
    Expression :=
  match replacement with
  | .trueE _ => .trueE (some (tokenFromContentWithAnchor "true" anchor))
  | .falseE _ => .falseE (some (tokenFromContentWithAnchor "false" anchor))
  | .nilE _ => .nilE (some (tokenFromContentWithAnchor "nil" anchor))
  | .variableArguments _ =>
    .variableArguments (some (tokenFromContentWithAnchor "..." anchor))
  | .number n tok =>
    if tok.isNone then
      .number n (some (tokenFromContentWithAnchor (writeNumber n) anchor))
    else .number n tok
  | .str s tok =>
    if tok.isNone then
      .str s (some (tokenFromContentWithAnchor (writeString s) anchor))
    else .str s tok
  | other => other

/-- `Computer::process_expression`, with fuel standing for the recursion
depth of the mutual `replace_with`/`process_expression` pair (the depth of
the expression always suffices). -/
def processExpressionGo : Nat → Expression → Expression
  | 0, e => e
  | f + 1, e =>
    match replaceWithAux (processExpressionGo f) e with
    | none => e
    | some evaluated =>
      match anchorFromExpression e with
      | none => evaluated
      | some anchor => applyAnchor evaluated anchor

/-- Size of an expression, used as recursion fuel. -/
def exprSize : Expression → Nat
  | .binary _ l r _ => exprSize l + exprSize r + 1
  | .unary _ e _ => exprSize e + 1
  | .ifExpr c t e _ => exprSize c + exprSize t + exprSize e + 1
  | _ => 1

/-- `Computer::process_expression` at adequate fuel. -/
def processExpression (e : Expression) : Expression :=
  processExpressionGo (exprSize e) e

/-- The token slot of a literal expression (used to state the origin
claims). -/
def primaryToken : Expression → Option Token
  | .nilE t => t
  | .trueE t => t
  | .falseE t => t
  | .number _ t => t
  | .str _ t => t
  | .variableArguments t => t
  | .identifier _ t => t
  | .binary _ _ _ t => t
  | .unary _ _ t => t
  | .ifExpr _ _ _ t => t
  | .call _ => none

/-- A replacement the token-setting block applies to: one of the literal
kinds, with numbers and strings token-free (as `to_expression` builds
them). -/
def isBareLiteral : Expression → Bool
  | .nilE _ => true
  | .trueE _ => true
  | .falseE _ => true
  | .variableArguments _ => true
  | .number _ tok => tok.isNone
  | .str _ tok => tok.isNone
  | _ => false

end CE

namespace CE

/-- C4 (counterexample): folding `1 + 2` whose `+` token sits at line 7,
source id 1 and carries leading trivia produces a number token with the
same line and source id but WITHOUT the representative token's leading
trivia: `token_from_content_with_anchor` builds a fresh token with empty
trivia (the trivia-preserving helper exists in `utils/origin.rs` but the
compute-expression rule does not use it). -/
theorem C4_origin_counterexample :
    (primaryToken (Expression.binary .plus (.number 1 none) (.number 2 none)
        (some ⟨"+", some 7, some 1, ["-- note "], []⟩))).map
        Token.leadingTrivia = some ["-- note "] ∧
    processExpression (Expression.binary .plus (.number 1 none)
        (.number 2 none) (some ⟨"+", some 7, some 1, ["-- note "], []⟩)) =
      .number 3 (some ⟨"3", some 7, some 1, [], []⟩) ∧
    (some ([] : List String) ≠ some ["-- note "]) := by
  refine ⟨by decide, by decide, by decide⟩

/-- C4 (amended): when the compute-expression rule substitutes a literal
(`nil`, `true`, `false`, a token-free number or string, or variadic) for an
expression whose representative token yields an anchor, the replacement's
token carries the anchor's line number and source id — but fresh, empty
trivia: the leading trivia of the representative token is NOT inherited
(contrary to the original claim).  In particular folding `return 1 + 2`
whose `+` token is at line 7, source id 1 yields a number token with line 7
and source id 1 (see the witness). -/
theorem C4_origin_amended (f : Nat) (e v : Expression) (a : OriginAnchor)
    (hanchor : anchorFromExpression e = some a)
    (hrepl : replaceWithAux (processExpressionGo f) e = some v)
    (hlit : isBareLiteral v = true) :
    ∃ t, primaryToken (processExpressionGo (f + 1) e) = some t ∧
      t.lineNumber = some a.lineNumber ∧ t.sourceId = some a.sourceId ∧
      t.leadingTrivia = [] ∧ t.trailingTrivia = [] := by
  have hstep : processExpressionGo (f + 1) e = applyAnchor v a := by
    rw [processExpressionGo, hrepl, hanchor]
  rw [hstep]
  cases v with
  | nilE tok => exact ⟨_, rfl, rfl, rfl, rfl, rfl⟩
  | trueE tok => exact ⟨_, rfl, rfl, rfl, rfl, rfl⟩
  | falseE tok => exact ⟨_, rfl, rfl, rfl, rfl, rfl⟩
  | variableArguments tok => exact ⟨_, rfl, rfl, rfl, rfl, rfl⟩
  | number n tok =>
    cases tok with
    | none => exact ⟨_, rfl, rfl, rfl, rfl, rfl⟩
    | some t0 => simp [isBareLiteral] at hlit
  | str s tok =>
    cases tok with
    | none => exact ⟨_, rfl, rfl, rfl, rfl, rfl⟩
    | some t0 => simp [isBareLiteral] at hlit
  | identifier nm tok => simp [isBareLiteral] at hlit
  | binary op l r tok => simp [isBareLiteral] at hlit
  | unary op s tok => simp [isBareLiteral] at hlit
  | ifExpr c t e tok => simp [isBareLiteral] at hlit
  | call tag => simp [isBareLiteral] at hlit

/-- C4 (witness): the amended origin theorem applied to `1 + 2` with the
`+` token at line 7, source id 1. -/
theorem C4_origin_amended_witness :
    ∃ t, primaryToken (processExpressionGo (3 + 1)
        (Expression.binary .plus (.number 1 none) (.number 2 none)
          (some ⟨"+", some 7, some 1, [], []⟩))) = some t ∧
      t.lineNumber = some (OriginAnchor.mk 7 1).lineNumber ∧
      t.sourceId = some (OriginAnchor.mk 7 1).sourceId ∧
      t.leadingTrivia = [] ∧ t.trailingTrivia = [] :=
  C4_origin_amended 3
    (Expression.binary .plus (.number 1 none) (.number 2 none)
      (some ⟨"+", some 7, some 1, [], []⟩))
    (.number 3 none) ⟨7, 1⟩ (by decide) (by decide) (by decide)

/-- C8 (amended): for a binary `and`/`or` whose left operand is
side-effect-free with decidable truthiness, the rule short-circuits.  When
the RIGHT operand has side effects the result is exactly the chosen
operand: a truthy left reduces `and` to the right operand and `or` to the
left operand, a falsy left reduces `and` to the left operand and `or` to
the right operand.  (When the whole expression is side-effect-free the rule
first evaluates it outright and may therefore return the folded value of
the chosen operand rather than the operand itself — see the
counterexample.)  When the left operand's truthiness is not decidable or
the left has side effects, the expression is left unchanged. -/
theorem C8_short_circuit_amended :
    (∀ (f : Nat) (l r : Expression) (tok : Option Token) (t : Bool),
      hasSideEffects r = true → hasSideEffects l = false →
      (evaluate l).isTruthy = some t →
      replaceWithAux (processExpressionGo f) (.binary .andOp l r tok) =
          some (if t = true then r else l) ∧
        replaceWithAux (processExpressionGo f) (.binary .orOp l r tok) =
          some (if t = true then l else r)) ∧
    (∀ (f : Nat) (op : BinaryOperator) (l r : Expression) (tok : Option Token),
      (op = .andOp ∨ op = .orOp) →
      ((evaluate l).isTruthy = none ∨ hasSideEffects l = true) →
      replaceWithAux (processExpressionGo f) (.binary op l r tok) = none ∧
        processExpressionGo (f + 1) (.binary op l r tok) =
          .binary op l r tok) := by
  constructor
  · intro f l r tok t hr hl ht
    have hwhole : hasSideEffects (.binary .andOp l r tok) = true := by
      simp [hasSideEffects, hr]
    have hwhole2 : hasSideEffects (.binary .orOp l r tok) = true := by
      simp [hasSideEffects, hr]
    constructor
    · rw [replaceWithAux]
      simp only [hwhole, Bool.not_true, if_false, Bool.false_eq_true, hl,
        Bool.not_false, if_true, ht]
      rfl
    · rw [replaceWithAux]
      simp only [hwhole2, Bool.not_true, if_false, Bool.false_eq_true, hl,
        Bool.not_false, if_true, ht]
      rfl
  · intro f op l r tok hop hbad
    have hnone : replaceWithAux (processExpressionGo f) (.binary op l r tok) =
        none := by
      rcases hop with hop | hop <;> subst hop <;>
        rw [replaceWithAux] <;>
        cases hw : hasSideEffects (.binary _ l r tok)
      case true =>
        simp only [hw, Bool.not_true, if_false, Bool.false_eq_true]
        rcases hbad with hbad | hbad
        · cases hl : hasSideEffects l <;> simp [hl, hbad]
        · simp [hbad]
      case false =>
        have hlpure : hasSideEffects l = false := by
          simp only [hasSideEffects, Bool.or_eq_false_iff] at hw
          exact hw.1
        have htnone : (evaluate l).isTruthy = none := by
          rcases hbad with hbad | hbad
          · exact hbad
          · rw [hlpure] at hbad; cases hbad
        have heval : evaluate (.binary .andOp l r tok) = .unknown := by
          simp [evaluate, htnone]
        simp only [hw, Bool.not_false, if_true, heval, LuaValue.toExpression]
        simp [Option.orElse, htnone]
      case true =>
        simp only [hw, Bool.not_true, if_false, Bool.false_eq_true]
        rcases hbad with hbad | hbad
        · cases hl : hasSideEffects l <;> simp [hl, hbad]
        · simp [hbad]
      case false =>
        have hlpure : hasSideEffects l = false := by
          simp only [hasSideEffects, Bool.or_eq_false_iff] at hw
          exact hw.1
        have htnone : (evaluate l).isTruthy = none := by
          rcases hbad with hbad | hbad
          · exact hbad
          · rw [hlpure] at hbad; cases hbad
        have heval : evaluate (.binary .orOp l r tok) = .unknown := by
          simp [evaluate, htnone]
        simp only [hw, Bool.not_false, if_true, heval, LuaValue.toExpression]
        simp [Option.orElse, htnone]
    refine ⟨hnone, ?_⟩
    rw [processExpressionGo, hnone]

/-- C8 (witness): the amended short-circuit theorem applied to
`true and f()`, `true or f()` (side-effectful right operand) and to
`g() and true` (side-effectful left operand, left unchanged). -/
theorem C8_short_circuit_amended_witness :
    (replaceWithAux (processExpressionGo 3)
        (.binary .andOp (.trueE none) (.call "f") none) =
        some (if true = true then (Expression.call "f") else .trueE none) ∧
      replaceWithAux (processExpressionGo 3)
        (.binary .orOp (.trueE none) (.call "f") none) =
        some (if true = true then (Expression.trueE none) else .call "f")) ∧
    (replaceWithAux (processExpressionGo 3)
        (.binary .andOp (.call "g") (.trueE none) none) = none ∧
      processExpressionGo (3 + 1) (.binary .andOp (.call "g") (.trueE none) none) =
        .binary .andOp (.call "g") (.trueE none) none) :=
  ⟨C8_short_circuit_amended.1 3 (.trueE none) (.call "f") none true
      (by decide) (by decide) (by decide),
    C8_short_circuit_amended.2 3 .andOp (.call "g") (.trueE none) none
      (Or.inl rfl) (Or.inr (by decide))⟩

/-- C8 (counterexample): `true and (1 + 2)` has a side-effect-free, truthy
left operand, but the rule does not reduce it to the right operand `1 + 2`:
the whole expression is side-effect-free, so the rule evaluates it outright
and returns the folded value `3`. -/
theorem C8_short_circuit_counterexample :
    hasSideEffects (Expression.trueE none) = false ∧
    (evaluate (Expression.trueE none)).isTruthy = some true ∧
    processExpression (.binary .andOp (.trueE none)
        (.binary .plus (.number 1 none) (.number 2 none) none) none) =
      .number 3 none ∧
    (Expression.number 3 none ≠
      .binary .plus (.number 1 none) (.number 2 none) none) := by
  refine ⟨by decide, by decide, by decide, by decide⟩

end CE

namespace Bundle

open Rojo (InstancePath InstancePathRoot InstancePathComponent)

/-- The prefix-expression fragment built by the instance-path conversions:
identifiers, field accesses and single-string-argument method calls. -/
inductive PrefExpr where
  | ident (name : String)
  | fieldAccess (base : PrefExpr) (field : String)
  | methodCall (base : PrefExpr) (method : String) (argument : String)
deriving DecidableEq, Repr

/-- Modelled from the spec: `RobloxIndexStyle` of the convert-require module
(outside `src/`); the property style indexes children by plain field
access. -/
inductive RobloxIndexStyle where
  | property
  | findFirstChild
  | waitForChild
deriving DecidableEq, Repr

/-- Modelled from the spec: `RobloxIndexStyle::index`. -/
def RobloxIndexStyle.index : RobloxIndexStyle → PrefExpr → String → PrefExpr
  | .property, p, n => .fieldAccess p n
  | .findFirstChild, p, n => .methodCall p "FindFirstChild" n
  | .waitForChild, p, n => .methodCall p "WaitForChild" n

/-- `script_identifier` from `instance_path.rs`. -/
def scriptIdentifier : PrefExpr := .ident "script"

/-- `datamodel_identifier` from `instance_path.rs`. -/
def datamodelIdentifier : PrefExpr := .ident "game"

/-- `get_parent_instance` from `instance_path.rs`. -/
def getParentInstance (p : PrefExpr) : PrefExpr := .fieldAccess p "Parent"

/-- The component loop of `InstancePath::convert`. -/
def convertComponents (style : RobloxIndexStyle) :
    PrefExpr → List InstancePathComponent → PrefExpr
  | pre, [] => pre
  | pre, .parent :: rest => convertComponents style (getParentInstance pre) rest
  | pre, .child n :: rest => convertComponents style (style.index pre n) rest
  | pre, .ancestor n :: rest =>
    convertComponents style (.methodCall pre "FindFirstAncestor" n) rest

/-- `InstancePath::convert` from `instance_path.rs`.  Note that for a
`Root`-rooted path the first component is consumed unconditionally by
`components_iter.next()`: when it is a `Child` it becomes a `GetService`
call, otherwise it is silently dropped. -/
def convertInstancePath (path : InstancePath) (style : RobloxIndexStyle) :
    PrefExpr :=
  match path.root with
  | .script => convertComponents style scriptIdentifier path.components
  | .root =>
    match path.components with
    | [] => datamodelIdentifier
    | .child serviceName :: rest =>
      convertComponents style
        (.methodCall datamodelIdentifier "GetService" serviceName) rest
    | _ :: rest => convertComponents style datamodelIdentifier rest

/-- The component loop of `instance_path_to_game_string` (mod.rs). -/
def gameStringComponents : String → List InstancePathComponent → String
  | s, [] => s
  | s, .parent :: rest => gameStringComponents (s ++ ".Parent") rest
  | s, .child n :: rest => gameStringComponents (s ++ "." ++ n) rest
  | s, .ancestor n :: rest =>
    gameStringComponents (s ++ ".FindFirstAncestor(\"" ++ n ++ "\")") rest

/-- `instance_path_to_game_string` from mod.rs. -/
def instancePathToGameString (path : InstancePath) : String :=
  gameStringComponents
    (match path.root with
     | .root => "game"
     | .script => "script") path.components

/-- The component loop of `instance_path_to_game_prefix` (property style
throughout). -/
def gamePrefixComponents : PrefExpr → List InstancePathComponent → PrefExpr
  | pre, [] => pre
  | pre, .parent :: rest => gamePrefixComponents (getParentInstance pre) rest
  | pre, .child n :: rest =>
    gamePrefixComponents (RobloxIndexStyle.property.index pre n) rest
  | pre, .ancestor n :: rest =>
    gamePrefixComponents (.methodCall pre "FindFirstAncestor" n) rest

/-- `instance_path_to_game_prefix` from mod.rs: a property-based path from
`game`, avoiding `GetService` for the first component; falls back to
`InstancePath::convert` with the property style when the first component is
not a service child. -/
def instancePathToGamePrefix (path : InstancePath) : PrefExpr :=
  match path.components with
  | [] => datamodelIdentifier
  | first :: rest =>
    match first with
    | .child serviceName =>
      gamePrefixComponents (.fieldAccess datamodelIdentifier serviceName) rest
    | _ => convertInstancePath path .property

/-- The expressions the bundler visitor distinguishes.  A `requireCall p`
stands for a require call whose instance-path argument resolves (through
`require_call` and the manifest) to the file `p`; `requireArg` is a require
call whose argument has been rewritten to an instance-path prefix;
`moduleRef n` is the `__MOD.load("n")` replacement returned by the module
builder. -/
inductive LExpr where
  | requireCall (path : String)
  | requireArg (arg : PrefExpr)
  | moduleRef (name : String)
  | nilE
  | strE (value : String)
  | other (tag : String)
deriving DecidableEq, Repr

/-- Last statements: return (with a list of values) or a break-like jump. -/
inductive LastStat where
  | ret (values : List LExpr)
  | brk
deriving DecidableEq, Repr

/-- Statements: local assignments and expression (call) statements. -/
inductive LStmt where
  | localAssign (name : String) (value : LExpr)
  | exprStat (e : LExpr)
deriving DecidableEq, Repr

/-- A block: statements plus an optional last statement. -/
structure LBlock where
  stmts : List LStmt
  lastStat : Option LastStat
deriving DecidableEq, Repr

/-- A resource as `require_resource` dispatches on the extension: a parsed
Lua block, a data file transcoded to an expression, a text file, or an
unsupported extension. -/
inductive BundleResource where
  | luaFile (block : LBlock)
  | dataFile (value : LExpr)
  | txtFile (content : String)
  | invalidExtension
deriving DecidableEq, Repr

/-- `RequiredResource` from mod.rs. -/
inductive RequiredResource where
  | block (b : LBlock)
  | expression (e : LExpr)
deriving DecidableEq, Repr

/-- A module definition recorded by `BuildModuleDefinitions` (its exported
types are outside this model). -/
structure ModuleDefinition where
  name : String
  block : LBlock
  path : String
deriving DecidableEq, Repr

/-- The mutable state of `RequireRobloxProcessor` together with the
`BuildModuleDefinitions` it owns. -/
structure BundlerState where
  moduleCache : List (String × LExpr)
  requireStack : List String
  skipModulePaths : List String
  moduleDefinitions : List ModuleDefinition
  permutatorNext : Nat
  errors : List String
deriving DecidableEq, Repr

/-- The environment of one bundling run: the resources, the exclude
predicate (glob matching is external), and the manifest-backed path
resolvers used by `try_inline_call` (`get_absolute_instance_path_for_file`,
`get_instance_path_for_file`, and the instance path parsed from the call's
argument). -/
structure BundleEnv where
  files : List (String × BundleResource)
  excluded : String → Bool
  absolutePathOf : String → Option InstancePath
  instancePathOf : String → String → Option InstancePath
  parsedPathOf : String → InstancePath
  modulesIdentifier : String

/-- `HashMap`-style lookup over an association list. -/
def lookupAssoc {α : Type} (l : List (String × α)) (k : String) : Option α :=
  (l.find? (fun kv => kv.1 == k)).map (·.2)

/-- Modelled from the spec: the base-26 permutator of `generate_identifier`
(`a, b, …, z, aa, ab, …`); fueled bijective base-26 printing. -/
def base26Go : Nat → Nat → List Char → List Char
  | 0, _, acc => acc
  | f + 1, n, acc =>
    let c := Char.ofNat (97 + n % 26)
    let acc := c :: acc
    if n < 26 then acc else base26Go f (n / 26 - 1) acc

/-- Modelled from the spec: `generate_identifier`. -/
def generateIdentifier (n : Nat) : String := ⟨base26Go (n + 1) n []⟩

/-- The reserved module-table field names. -/
def reservedName (s : String) : Bool := s == "cache" || s == "load"

/-- `generate_module_name`: advance the permutator past the reserved names
`cache` and `load`.  Successive generated names are distinct, so the Rust
loop retries at most twice; the loop is unrolled accordingly. -/
def generateModuleName (counter : Nat) : String × Nat :=
  if reservedName (generateIdentifier counter) then
    if reservedName (generateIdentifier (counter + 1)) then
      (generateIdentifier (counter + 2), counter + 3)
    else (generateIdentifier (counter + 1), counter + 2)
  else (generateIdentifier counter, counter + 1)

/-- The cyclic-require error message of `inline_require`. -/
def cyclicErrorMessage (paths : List String) : String :=
  "cyclic require detected with `" ++ String.intercalate "` > `" paths ++ "`"

/-- Fuel-exhaustion marker of this embedding (the source recursion is
unbounded; adequate fuel never reaches it). -/
def fuelExhaustedError : String := "bundling recursion exceeded the embedding fuel"

/-- `BuildModuleDefinitions::build_module_from_resource` (exported-type
extraction and token-trivia transfer operate on data outside this model). -/
def buildModuleFromResource (st : BundlerState) (required : RequiredResource)
    (sourcePath : String) (robloxReference : String) :
    BundlerState × Except String LExpr :=
  let blockResult : Except String LBlock :=
    match required with
    | .block b =>
      match b.lastStat with
      | some (.ret es) =>
        if es.length ≠ 1 then
          .error ("invalid Lua module at `" ++ robloxReference ++
            "`: module must return exactly one value")
        else .ok b
      | _ => .ok { b with lastStat := some (.ret [.nilE]) }
    | .expression e => .ok ⟨[], some (.ret [e])⟩
  match blockResult with
  | .error msg => (st, .error msg)
  | .ok b =>
    let (moduleName, counter') := generateModuleName st.permutatorNext
    ({ st with
        moduleDefinitions := st.moduleDefinitions ++ [⟨moduleName, b, sourcePath⟩]
        permutatorNext := counter' },
      .ok (.moduleRef moduleName))

/-- `try_inline_call`, parameterized by `inline_require` (the callee of the
recursion knot).  `require_call` resolution — parsing the argument into an
instance path and resolving it through the manifest — is summarized by the
environment: the call being processed carries its resolved file path, and
the `abs_instance_path`/`roblox_reference` pair follows `require_call`'s
fallback chain. -/
def tryInlineCallWith (env : BundleEnv)
    (inline : BundlerState → String → String → BundlerState × Except String LExpr)
    (source : String) (st : BundlerState) (requirePath : String) :
    BundlerState × Option LExpr :=
  let absInstancePath :=
    (env.instancePathOf source requirePath).getD (env.parsedPathOf requirePath)
  let robloxReference := instancePathToGameString absInstancePath
  if env.excluded requirePath then
    let rewritePath := ((env.absolutePathOf requirePath).orElse
      (fun _ => env.instancePathOf source requirePath)).getD absInstancePath
    (st, some (.requireArg (instancePathToGamePrefix rewritePath)))
  else if st.skipModulePaths.contains requirePath then (st, none)
  else
    match inline st requirePath robloxReference with
    | (st', .ok e) => (st', some e)
    | (st', .error msg) =>
      ({ st' with
          errors := st'.errors ++ [msg]
          skipModulePaths := st'.skipModulePaths ++ [requirePath] }, none)

/-- `process_expression` of the visitor: replace require calls whose
inlining succeeds. -/
def processExprWith (tryCall : BundlerState → String → BundlerState × Option LExpr)
    (st : BundlerState) (e : LExpr) : BundlerState × LExpr :=
  match e with
  | .requireCall p =>
    match tryCall st p with
    | (st', some e') => (st', e')
    | (st', none) => (st', .requireCall p)
  | e => (st, e)

/-- Visiting a list of expressions (a return statement's values). -/
def processExprsWith (tryCall : BundlerState → String → BundlerState × Option LExpr) :
    BundlerState → List LExpr → BundlerState × List LExpr
  | st, [] => (st, [])
  | st, e :: rest =>
    let (st1, e') := processExprWith tryCall st e
    let (st2, rest') := processExprsWith tryCall st1 rest
    (st2, e' :: rest')

/-- Visiting one statement.  Statement-position replacements stay calls
(`__MOD.load(...)` and rewritten requires are calls), so `process_statement`
keeps the statement form. -/
def processStmtWith (tryCall : BundlerState → String → BundlerState × Option LExpr)
    (st : BundlerState) : LStmt → BundlerState × LStmt
  | .localAssign n v =>
    let (st1, v') := processExprWith tryCall st v
    (st1, .localAssign n v')
  | .exprStat e =>
    let (st1, e') := processExprWith tryCall st e
    (st1, .exprStat e')

/-- Visiting a statement list. -/
def processStmtsWith (tryCall : BundlerState → String → BundlerState × Option LExpr) :
    BundlerState → List LStmt → BundlerState × List LStmt
  | st, [] => (st, [])
  | st, s :: rest =>
    let (st1, s') := processStmtWith tryCall st s
    let (st2, rest') := processStmtsWith tryCall st1 rest
    (st2, s' :: rest')

/-- Visiting a block (the `DefaultVisitor` walk restricted to this AST). -/
def processBlockWith (tryCall : BundlerState → String → BundlerState × Option LExpr)
    (st : BundlerState) (b : LBlock) : BundlerState × LBlock :=
  let (st1, stmts') := processStmtsWith tryCall st b.stmts
  match b.lastStat with
  | some (.ret es) =>
    let (st2, es') := processExprsWith tryCall st1 es
    (st2, ⟨stmts', some (.ret es')⟩)
  | other => (st1, ⟨stmts', other⟩)

/-- `require_resource`, parameterized by the source-indexed `try_inline_call`
used while visiting a nested Lua block (the Rust code swaps `self.source`
to the required path for the nested visit). -/
def requireResourceWith (env : BundleEnv)
    (tryCallAt : String → BundlerState → String → BundlerState × Option LExpr)
    (st : BundlerState) (path : String) :
    BundlerState × Except String RequiredResource :=
  match lookupAssoc env.files path with
  | none => (st, .error ("cannot find resource `" ++ path ++ "`"))
  | some (.luaFile b) =>
    let (st', b') := processBlockWith (tryCallAt path) st b
    (st', .ok (.block b'))
  | some (.dataFile e) => (st, .ok (.expression e))
  | some (.txtFile content) => (st, .ok (.expression (.strE content)))
  | some .invalidExtension =>
    (st, .error ("invalid resource extension `" ++ path ++ "`"))

/-- `inline_require`, with fuel bounding the require-nesting depth (the
source recursion is unbounded; one more file than there are resources is
always enough fuel). -/
def inlineRequireF (env : BundleEnv) :
    Nat → BundlerState → String → String → BundlerState × Except String LExpr
  | 0, st, _, _ => (st, .error fuelExhaustedError)
  | f + 1, st, requirePath, robloxReference =>
    match lookupAssoc st.moduleCache requirePath with
    | some e => (st, .ok e)
    | none =>
      match st.requireStack.findIdx? (fun p => p == requirePath) with
      | some i =>
        (st, .error (cyclicErrorMessage
          (st.requireStack.drop i ++ [requirePath])))
      | none =>
        let st1 := { st with requireStack := st.requireStack ++ [requirePath] }
        let res := requireResourceWith env
          (fun src' st' p' =>
            tryInlineCallWith env
              (fun st'' p'' r'' => inlineRequireF env f st'' p'' r'')
              src' st' p')
          st1 requirePath
        let st3 := { res.1 with requireStack := res.1.requireStack.dropLast }
        match res.2 with
        | .error e => (st3, .error e)
        | .ok r =>
          match buildModuleFromResource st3 r requirePath robloxReference with
          | (st4, .error e) => (st4, .error e)
          | (st4, .ok moduleValue) =>
            ({ st4 with moduleCache :=
                st4.moduleCache ++ [(requirePath, moduleValue)] },
              .ok moduleValue)

/-- `try_inline_call` at a given fuel. -/
def tryInlineCall (env : BundleEnv) (fuel : Nat) (source : String)
    (st : BundlerState) (p : String) : BundlerState × Option LExpr :=
  tryInlineCallWith env
    (fun st' p' r' => inlineRequireF env fuel st' p' r') source st p

/-- Visiting a block at a given fuel. -/
def processBlock (env : BundleEnv) (fuel : Nat) (source : String)
    (st : BundlerState) (b : LBlock) : BundlerState × LBlock :=
  processBlockWith (tryInlineCall env fuel source) st b

/-- The fresh state `RequireRobloxProcessor::new` builds. -/
def initialState : BundlerState := ⟨[], [], [], [], 0, []⟩

/-- Statements of the bundled output block: the original statements plus
the three top insertions of `BuildModuleDefinitions::apply`. -/
inductive OutStmt where
  | plain (s : LStmt)
  | localDecl (name : String)
  | assignModulesTable (name : String)
  | moduleFunctions (defs : List ModuleDefinition)
deriving DecidableEq, Repr

/-- The bundled output block. -/
structure OutBlock where
  stmts : List OutStmt
  lastStat : Option LastStat
deriving DecidableEq, Repr

/-- `BuildModuleDefinitions::apply`: nothing is inserted when no module was
built; otherwise the hoisted declarations — `local __MOD`, the
cache/load-table assignment, one `do` block holding every module function —
are inserted at the top (exported-type hoisting and line-shift mapping act
on data outside this model). -/
def applyModuleDefs (modulesIdentifier : String)
    (defs : List ModuleDefinition) (b : LBlock) : OutBlock :=
  if defs.isEmpty then ⟨b.stmts.map .plain, b.lastStat⟩
  else
    ⟨.localDecl modulesIdentifier :: .assignModulesTable modulesIdentifier ::
      .moduleFunctions defs :: b.stmts.map .plain, b.lastStat⟩

/-- `process_block` of the roblox require mode: visit the entry block from
a fresh processor, apply the module definitions, then surface the collected
errors (`RequireRobloxProcessor::apply`). -/
def processEntryBlock (env : BundleEnv) (fuel : Nat) (source : String)
    (b : LBlock) : BundlerState × Except String OutBlock :=
  let res := processBlock env fuel source initialState b
  let out := applyModuleDefs env.modulesIdentifier res.1.moduleDefinitions res.2
  (res.1, match res.1.errors with
    | [] => .ok out
    | [e] => .error e
    | es => .error ("- " ++ String.intercalate "\n- " es))

end Bundle

namespace Bundle

/-- The paths keyed in the module cache. -/
def cachePaths (st : BundlerState) : List String := st.moduleCache.map (·.1)

/-- The source paths of the recorded module definitions. -/
def defsPaths (st : BundlerState) : List String :=
  st.moduleDefinitions.map (·.path)

/-- How one processing step may change the bundler state: the require stack
is restored, and the error list, the skip set, the module cache and the
module definitions only grow at the end. -/
structure Ext (st st' : BundlerState) : Prop where
  stack : st'.requireStack = st.requireStack
  errors : ∃ l, st'.errors = st.errors ++ l
  skip : ∃ l, st'.skipModulePaths = st.skipModulePaths ++ l
  cache : ∃ l, st'.moduleCache = st.moduleCache ++ l
  defs : ∃ l, st'.moduleDefinitions = st.moduleDefinitions ++ l

theorem extRefl (st : BundlerState) : Ext st st :=
  ⟨rfl, ⟨[], (List.append_nil _).symm⟩, ⟨[], (List.append_nil _).symm⟩,
    ⟨[], (List.append_nil _).symm⟩, ⟨[], (List.append_nil _).symm⟩⟩

theorem extTrans {s1 s2 s3 : BundlerState} (h1 : Ext s1 s2) (h2 : Ext s2 s3) :
    Ext s1 s3 := by
  obtain ⟨a1, ⟨e1, he1⟩, ⟨k1, hk1⟩, ⟨c1, hc1⟩, ⟨d1, hd1⟩⟩ := h1
  obtain ⟨a2, ⟨e2, he2⟩, ⟨k2, hk2⟩, ⟨c2, hc2⟩, ⟨d2, hd2⟩⟩ := h2
  exact ⟨a2.trans a1,
    ⟨e1 ++ e2, by rw [he2, he1, List.append_assoc]⟩,
    ⟨k1 ++ k2, by rw [hk2, hk1, List.append_assoc]⟩,
    ⟨c1 ++ c2, by rw [hc2, hc1, List.append_assoc]⟩,
    ⟨d1 ++ d2, by rw [hd2, hd1, List.append_assoc]⟩⟩

theorem ext_buildModule (st : BundlerState) (r : RequiredResource)
    (sp rr : String) : Ext st (buildModuleFromResource st r sp rr).1 := by
  unfold buildModuleFromResource
  dsimp only
  split
  · exact extRefl st
  · exact ⟨rfl, ⟨[], (List.append_nil _).symm⟩, ⟨[], (List.append_nil _).symm⟩,
      ⟨[], (List.append_nil _).symm⟩, ⟨_, rfl⟩⟩

theorem ext_tryInlineCallWith {env : BundleEnv}
    {inline : BundlerState → String → String → BundlerState × Except String LExpr}
    (hinl : ∀ st p r, Ext st (inline st p r).1)
    (source : String) (st : BundlerState) (p : String) :
    Ext st (tryInlineCallWith env inline source st p).1 := by
  unfold tryInlineCallWith
  dsimp only
  split
  · exact extRefl st
  · split
    · exact extRefl st
    · split
      · rename_i st' e heq
        have h := hinl st p (instancePathToGameString
          ((env.instancePathOf source p).getD (env.parsedPathOf p)))
        rw [heq] at h
        exact h
      · rename_i st' msg heq
        have h := hinl st p (instancePathToGameString
          ((env.instancePathOf source p).getD (env.parsedPathOf p)))
        rw [heq] at h
        refine extTrans h ⟨rfl, ⟨[msg], rfl⟩, ⟨[p], rfl⟩,
          ⟨[], (List.append_nil _).symm⟩, ⟨[], (List.append_nil _).symm⟩⟩

theorem ext_processExprWith
    {tc : BundlerState → String → BundlerState × Option LExpr}
    (htc : ∀ st p, Ext st (tc st p).1) (st : BundlerState) (e : LExpr) :
    Ext st (processExprWith tc st e).1 := by
  cases e with
  | requireCall p =>
    unfold processExprWith
    dsimp only
    split
    · rename_i st' e' heq
      have h := htc st p
      rw [heq] at h
      exact h
    · rename_i st' heq
      have h := htc st p
      rw [heq] at h
      exact h
  | requireArg a => exact extRefl st
  | moduleRef n => exact extRefl st
  | nilE => exact extRefl st
  | strE s => exact extRefl st
  | other t => exact extRefl st

theorem ext_processExprsWith
    {tc : BundlerState → String → BundlerState × Option LExpr}
    (htc : ∀ st p, Ext st (tc st p).1) :
    ∀ (es : List LExpr) (st : BundlerState),
      Ext st (processExprsWith tc st es).1 := by
  intro es
  induction es with
  | nil => intro st; exact extRefl st
  | cons e rest ih =>
    intro st
    unfold processExprsWith
    dsimp only
    exact extTrans (ext_processExprWith htc st e) (ih _)

theorem ext_processStmtWith
    {tc : BundlerState → String → BundlerState × Option LExpr}
    (htc : ∀ st p, Ext st (tc st p).1) (st : BundlerState) (s : LStmt) :
    Ext st (processStmtWith tc st s).1 := by
  cases s with
  | localAssign n v => exact ext_processExprWith htc st v
  | exprStat e => exact ext_processExprWith htc st e

theorem ext_processStmtsWith
    {tc : BundlerState → String → BundlerState × Option LExpr}
    (htc : ∀ st p, Ext st (tc st p).1) :
    ∀ (ss : List LStmt) (st : BundlerState),
      Ext st (processStmtsWith tc st ss).1 := by
  intro ss
  induction ss with
  | nil => intro st; exact extRefl st
  | cons s rest ih =>
    intro st
    unfold processStmtsWith
    dsimp only
    exact extTrans (ext_processStmtWith htc st s) (ih _)

theorem ext_processBlockWith
    {tc : BundlerState → String → BundlerState × Option LExpr}
    (htc : ∀ st p, Ext st (tc st p).1) (st : BundlerState) (b : LBlock) :
    Ext st (processBlockWith tc st b).1 := by
  unfold processBlockWith
  dsimp only
  split
  · exact extTrans (ext_processStmtsWith htc b.stmts st)
      (ext_processExprsWith htc _ _)
  · exact ext_processStmtsWith htc b.stmts st

theorem ext_requireResourceWith {env : BundleEnv}
    {tca : String → BundlerState → String → BundlerState × Option LExpr}
    (htc : ∀ src st p, Ext st (tca src st p).1)
    (st : BundlerState) (path : String) :
    Ext st (requireResourceWith env tca st path).1 := by
  unfold requireResourceWith
  split
  · exact extRefl st
  · exact ext_processBlockWith (htc path) st _
  · exact extRefl st
  · exact extRefl st
  · exact extRefl st

theorem ext_inlineRequireF {env : BundleEnv} :
    ∀ (fuel : Nat) (st : BundlerState) (p r : String),
      Ext st (inlineRequireF env fuel st p r).1 := by
  intro fuel
  induction fuel with
  | zero => intro st p r; exact extRefl st
  | succ f ih =>
    intro st p r
    rw [inlineRequireF]
    split
    · exact extRefl st
    · split
      · exact extRefl st
      · dsimp only
        set Q := requireResourceWith env
          (fun src' st' p' =>
            tryInlineCallWith env
              (fun st'' p'' r'' => inlineRequireF env f st'' p'' r'')
              src' st' p')
          { st with requireStack := st.requireStack ++ [p] } p with hQ
        have hmid : Ext { st with requireStack := st.requireStack ++ [p] } Q.1 := by
          rw [hQ]
          exact ext_requireResourceWith
            (fun src st' p' =>
              ext_tryInlineCallWith (fun a b c => ih a b c) src st' p') _ p
        obtain ⟨hstk, ⟨e1, he1⟩, ⟨k1, hk1⟩, ⟨c1, hc1⟩, ⟨d1, hd1⟩⟩ := hmid
        have hext3 : Ext st { Q.1 with requireStack := Q.1.requireStack.dropLast } :=
          ⟨by dsimp only; rw [hstk]; simp,
            ⟨e1, he1⟩, ⟨k1, hk1⟩, ⟨c1, hc1⟩, ⟨d1, hd1⟩⟩
        split
        · exact hext3
        · rename_i r' heqr
          split
          · rename_i st4 e4 heqb
            have hb := ext_buildModule
              { Q.1 with requireStack := Q.1.requireStack.dropLast } r' p r
            rw [heqb] at hb
            exact extTrans hext3 hb
          · rename_i st4 mv heqb
            have hb := ext_buildModule
              { Q.1 with requireStack := Q.1.requireStack.dropLast } r' p r
            rw [heqb] at hb
            exact extTrans hext3 (extTrans hb
              ⟨rfl, ⟨[], (List.append_nil _).symm⟩, ⟨[], (List.append_nil _).symm⟩,
                ⟨[(p, mv)], rfl⟩, ⟨[], (List.append_nil _).symm⟩⟩)

end Bundle

namespace Bundle

/-- C10: the instance-mode bundler's require stack is restored by every call
to `inline_require`: on the cyclic-require error path the function returns
before pushing, and on every other path the path pushed before loading the
resource is popped before the result (success or error) propagates, so the
require stack after `inline_require` returns always equals the require
stack at entry. -/
theorem C10_stack_restoration :
    ∀ (env : BundleEnv) (fuel : Nat) (st : BundlerState) (p r : String),
      (inlineRequireF env fuel st p r).1.requireStack = st.requireStack :=
  fun _ fuel st p r => (ext_inlineRequireF fuel st p r).stack

/-- C7: the module-definition builder's three cases for a Lua block: a last
return of exactly one expression is kept unchanged; a block that does not
end with a return statement gets `return nil` injected; a return of a
number of values different from one fails with the invalid-module error and
records no module definition (the state is returned unchanged). -/
theorem C7_module_return_handling :
    (∀ (st : BundlerState) (b : LBlock) (sp rr : String) (e : LExpr),
      b.lastStat = some (.ret [e]) →
      buildModuleFromResource st (.block b) sp rr =
        ({ st with
            moduleDefinitions := st.moduleDefinitions ++
              [⟨(generateModuleName st.permutatorNext).1, b, sp⟩]
            permutatorNext := (generateModuleName st.permutatorNext).2 },
          .ok (.moduleRef (generateModuleName st.permutatorNext).1))) ∧
    (∀ (st : BundlerState) (b : LBlock) (sp rr : String),
      (∀ es, b.lastStat ≠ some (.ret es)) →
      buildModuleFromResource st (.block b) sp rr =
        ({ st with
            moduleDefinitions := st.moduleDefinitions ++
              [⟨(generateModuleName st.permutatorNext).1,
                { b with lastStat := some (.ret [.nilE]) }, sp⟩]
            permutatorNext := (generateModuleName st.permutatorNext).2 },
          .ok (.moduleRef (generateModuleName st.permutatorNext).1))) ∧
    (∀ (st : BundlerState) (b : LBlock) (sp rr : String) (es : List LExpr),
      b.lastStat = some (.ret es) → es.length ≠ 1 →
      buildModuleFromResource st (.block b) sp rr =
        (st, .error ("invalid Lua module at `" ++ rr ++
          "`: module must return exactly one value"))) := by
  refine ⟨?_, ?_, ?_⟩
  · intro st b sp rr e hret
    unfold buildModuleFromResource
    dsimp only
    rw [hret]
    cases hgen : generateModuleName st.permutatorNext with
    | mk mn c => simp
  · intro st b sp rr hnr
    unfold buildModuleFromResource
    dsimp only
    cases hls : b.lastStat with
    | none =>
      cases hgen : generateModuleName st.permutatorNext with
      | mk mn c => simp
    | some ls =>
      cases ls with
      | ret es => exact absurd hls (hnr es)
      | brk =>
        cases hgen : generateModuleName st.permutatorNext with
        | mk mn c => simp
  · intro st b sp rr es hret hlen
    unfold buildModuleFromResource
    dsimp only
    rw [hret]
    simp [hlen]

/-- C7 (witness): the three builder cases at concrete blocks. -/
theorem C7_module_return_handling_witness :
    buildModuleFromResource initialState
        (.block ⟨[], some (.ret [.strE "x"])⟩) "m.lua" "game.m" =
      ({ initialState with
          moduleDefinitions := [⟨"a", ⟨[], some (.ret [.strE "x"])⟩, "m.lua"⟩]
          permutatorNext := 1 }, .ok (.moduleRef "a")) ∧
    buildModuleFromResource initialState (.block ⟨[], none⟩) "m.lua" "game.m" =
      ({ initialState with
          moduleDefinitions := [⟨"a", ⟨[], some (.ret [.nilE])⟩, "m.lua"⟩]
          permutatorNext := 1 }, .ok (.moduleRef "a")) ∧
    buildModuleFromResource initialState
        (.block ⟨[], some (.ret [.strE "x", .nilE])⟩) "m.lua" "game.m" =
      (initialState, .error
        "invalid Lua module at `game.m`: module must return exactly one value") := by
  refine ⟨?_, ?_, ?_⟩
  · rw [C7_module_return_handling.1 initialState _ "m.lua" "game.m" (.strE "x") rfl]
    rfl
  · rw [C7_module_return_handling.2.1 initialState ⟨[], none⟩ "m.lua" "game.m"
      (by intro es h; cases h)]
    rfl
  · rw [C7_module_return_handling.2.2 initialState _ "m.lua" "game.m"
      [.strE "x", .nilE] rfl (by decide)]
    rfl

end Bundle

namespace Bundle

/-- Lockstep growth of the module cache and the module definitions: across
one processing step the stack is restored, the cache gains some entries,
the definition paths gain exactly those entries' paths, none of the new
paths was on the entry require stack, and distinctness of the cached paths
is preserved. -/
def Lock (st st' : BundlerState) : Prop :=
  st'.requireStack = st.requireStack ∧
  ∃ new, st'.moduleCache = st.moduleCache ++ new ∧
    defsPaths st' = defsPaths st ++ new.map (·.1) ∧
    (∀ q ∈ new.map (·.1), q ∉ st.requireStack) ∧
    ((cachePaths st).Nodup → (cachePaths st').Nodup)

theorem lockRefl (st : BundlerState) : Lock st st :=
  ⟨rfl, [], (List.append_nil _).symm, (List.append_nil _).symm,
    fun q hq => absurd hq (List.not_mem_nil q), fun h => h⟩

theorem lockTrans {s1 s2 s3 : BundlerState} (h1 : Lock s1 s2)
    (h2 : Lock s2 s3) : Lock s1 s3 := by
  obtain ⟨ha1, n1, hc1, hd1, hs1, hn1⟩ := h1
  obtain ⟨ha2, n2, hc2, hd2, hs2, hn2⟩ := h2
  refine ⟨ha2.trans ha1, n1 ++ n2, ?_, ?_, ?_, fun h => hn2 (hn1 h)⟩
  · rw [hc2, hc1, List.append_assoc]
  · rw [hd2, hd1, List.map_append, List.append_assoc]
  · intro q hq
    rw [List.map_append] at hq
    rcases List.mem_append.mp hq with h | h
    · exact hs1 q h
    · rw [← ha1]
      exact hs2 q h

theorem lock_of_same {st st' : BundlerState}
    (h1 : st'.requireStack = st.requireStack)
    (h2 : st'.moduleCache = st.moduleCache)
    (h3 : st'.moduleDefinitions = st.moduleDefinitions) : Lock st st' :=
  ⟨h1, [], by rw [h2, List.append_nil], by rw [defsPaths, defsPaths, h3]; simp,
    fun q hq => absurd hq (List.not_mem_nil q),
    fun h => by rw [cachePaths, h2]; exact h⟩

theorem lookupAssoc_none_not_mem {α : Type} {l : List (String × α)} {k : String}
    (h : lookupAssoc l k = none) : k ∉ l.map (·.1) := by
  intro hmem
  obtain ⟨kv, hkv, hfst⟩ := List.mem_map.mp hmem
  have : ∀ kv' ∈ l, ¬ (kv'.1 == k) = true := by
    intro kv' h'
    exact List.find?_eq_none.mp (Option.map_eq_none.mp h) kv' h'
  exact this kv hkv (by rw [hfst]; exact beq_self_eq_true k)

theorem buildModule_error_shape {st st4 : BundlerState} {r : RequiredResource}
    {sp rr e : String}
    (h : buildModuleFromResource st r sp rr = (st4, .error e)) : st4 = st := by
  unfold buildModuleFromResource at h
  dsimp only at h
  split at h
  · exact (Prod.mk.injEq _ _ _ _ ▸ h).1.symm ▸ rfl
  · cases hgen : generateModuleName st.permutatorNext with
    | mk mn c =>
      rw [hgen] at h
      cases h

theorem buildModule_ok_shape {st st4 : BundlerState} {r : RequiredResource}
    {sp rr : String} {mv : LExpr}
    (h : buildModuleFromResource st r sp rr = (st4, .ok mv)) :
    st4.moduleCache = st.moduleCache ∧ defsPaths st4 = defsPaths st ++ [sp] ∧
      st4.requireStack = st.requireStack ∧
      st4.errors = st.errors ∧ st4.skipModulePaths = st.skipModulePaths := by
  unfold buildModuleFromResource at h
  dsimp only at h
  split at h
  · cases h
  · cases hgen : generateModuleName st.permutatorNext with
    | mk mn c =>
      rw [hgen] at h
      have hst := (Prod.mk.injEq _ _ _ _ ▸ h).1
      rw [← hst]
      refine ⟨rfl, ?_, rfl, rfl, rfl⟩
      rw [defsPaths, defsPaths]
      simp

end Bundle

namespace Bundle

theorem lock_tryInlineCallWith {env : BundleEnv}
    {inline : BundlerState → String → String → BundlerState × Except String LExpr}
    (hinl : ∀ st p r, Lock st (inline st p r).1)
    (source : String) (st : BundlerState) (p : String) :
    Lock st (tryInlineCallWith env inline source st p).1 := by
  unfold tryInlineCallWith
  dsimp only
  split
  · exact lockRefl st
  · split
    · exact lockRefl st
    · split
      · rename_i st' e heq
        have h := hinl st p (instancePathToGameString
          ((env.instancePathOf source p).getD (env.parsedPathOf p)))
        rw [heq] at h
        exact h
      · rename_i st' msg heq
        have h := hinl st p (instancePathToGameString
          ((env.instancePathOf source p).getD (env.parsedPathOf p)))
        rw [heq] at h
        exact lockTrans h (lock_of_same rfl rfl rfl)

theorem lock_processExprWith
    {tc : BundlerState → String → BundlerState × Option LExpr}
    (htc : ∀ st p, Lock st (tc st p).1) (st : BundlerState) (e : LExpr) :
    Lock st (processExprWith tc st e).1 := by
  cases e with
  | requireCall p =>
    unfold processExprWith
    dsimp only
    split
    · rename_i st' e' heq
      have h := htc st p
      rw [heq] at h
      exact h
    · rename_i st' heq
      have h := htc st p
      rw [heq] at h
      exact h
  | requireArg a => exact lockRefl st
  | moduleRef n => exact lockRefl st
  | nilE => exact lockRefl st
  | strE s => exact lockRefl st
  | other t => exact lockRefl st

theorem lock_processExprsWith
    {tc : BundlerState → String → BundlerState × Option LExpr}
    (htc : ∀ st p, Lock st (tc st p).1) :
    ∀ (es : List LExpr) (st : BundlerState),
      Lock st (processExprsWith tc st es).1 := by
  intro es
  induction es with
  | nil => intro st; exact lockRefl st
  | cons e rest ih =>
    intro st
    unfold processExprsWith
    dsimp only
    exact lockTrans (lock_processExprWith htc st e) (ih _)

theorem lock_processStmtWith
    {tc : BundlerState → String → BundlerState × Option LExpr}
    (htc : ∀ st p, Lock st (tc st p).1) (st : BundlerState) (s : LStmt) :
    Lock st (processStmtWith tc st s).1 := by
  cases s with
  | localAssign n v => exact lock_processExprWith htc st v
  | exprStat e => exact lock_processExprWith htc st e

theorem lock_processStmtsWith
    {tc : BundlerState → String → BundlerState × Option LExpr}
    (htc : ∀ st p, Lock st (tc st p).1) :
    ∀ (ss : List LStmt) (st : BundlerState),
      Lock st (processStmtsWith tc st ss).1 := by
  intro ss
  induction ss with
  | nil => intro st; exact lockRefl st
  | cons s rest ih =>
    intro st
    unfold processStmtsWith
    dsimp only
    exact lockTrans (lock_processStmtWith htc st s) (ih _)

theorem lock_processBlockWith
    {tc : BundlerState → String → BundlerState × Option LExpr}
    (htc : ∀ st p, Lock st (tc st p).1) (st : BundlerState) (b : LBlock) :
    Lock st (processBlockWith tc st b).1 := by
  unfold processBlockWith
  dsimp only
  split
  · exact lockTrans (lock_processStmtsWith htc b.stmts st)
      (lock_processExprsWith htc _ _)
  · exact lock_processStmtsWith htc b.stmts st

theorem lock_requireResourceWith {env : BundleEnv}
    {tca : String → BundlerState → String → BundlerState × Option LExpr}
    (htc : ∀ src st p, Lock st (tca src st p).1)
    (st : BundlerState) (path : String) :
    Lock st (requireResourceWith env tca st path).1 := by
  unfold requireResourceWith
  split
  · exact lockRefl st
  · exact lock_processBlockWith (htc path) st _
  · exact lockRefl st
  · exact lockRefl st
  · exact lockRefl st

theorem lock_inlineRequireF {env : BundleEnv} :
    ∀ (fuel : Nat) (st : BundlerState) (p r : String),
      Lock st (inlineRequireF env fuel st p r).1 := by
  intro fuel
  induction fuel with
  | zero => intro st p r; exact lockRefl st
  | succ f ih =>
    intro st p r
    rw [inlineRequireF]
    split
    · exact lockRefl st
    · split
      · exact lockRefl st
      · rename_i a1 hnc a2 hni
        dsimp only
        set Q := requireResourceWith env
          (fun src' st' p' =>
            tryInlineCallWith env
              (fun st'' p'' r'' => inlineRequireF env f st'' p'' r'')
              src' st' p')
          { st with requireStack := st.requireStack ++ [p] } p with hQ
        have hmid : Lock { st with requireStack := st.requireStack ++ [p] } Q.1 := by
          rw [hQ]
          exact lock_requireResourceWith
            (fun src st' p' =>
              lock_tryInlineCallWith (fun a b c => ih a b c) src st' p') _ p
        obtain ⟨hstk, n1, hc1, hd1, hs1, hn1⟩ := hmid
        have hpnotstack : p ∉ st.requireStack := by
          intro hmem
          have h2 := List.findIdx?_eq_none_iff.mp hni p hmem
          simp at h2
        have hstk3 : Q.1.requireStack.dropLast = st.requireStack := by
          rw [hstk]
          simp
        have hlock3 : Lock st { Q.1 with requireStack := Q.1.requireStack.dropLast } := by
          refine ⟨hstk3, n1, hc1, hd1, ?_, ?_⟩
          · intro q hq
            intro hmem
            exact hs1 q hq (List.mem_append.mpr (Or.inl hmem))
          · intro h
            exact hn1 h
        split
        · exact hlock3
        · rename_i r' heqr
          split
          · rename_i st4 e4 heqb
            have hb := buildModule_error_shape heqb
            rw [hb]
            exact hlock3
          · rename_i st4 mv heqb
            obtain ⟨hbc, hbd, hbs, hbe, hbk⟩ := buildModule_ok_shape heqb
            refine ⟨?_, n1 ++ [(p, mv)], ?_, ?_, ?_, ?_⟩
            · dsimp only
              rw [hbs, hstk3]
            · dsimp only
              rw [hbc, hc1]
              dsimp only [cachePaths]
              rw [List.append_assoc]
            · have : defsPaths { st4 with moduleCache := st4.moduleCache ++ [(p, mv)] } =
                  defsPaths st4 := rfl
              rw [this, hbd]
              show defsPaths { Q.1 with requireStack := Q.1.requireStack.dropLast } ++ [p] = _
              have hd3 : defsPaths { Q.1 with requireStack := Q.1.requireStack.dropLast } =
                  defsPaths Q.1 := rfl
              rw [hd3, hd1]
              show defsPaths { st with requireStack := st.requireStack ++ [p] } ++
                List.map (fun x => x.1) n1 ++ [p] = _
              have hd0 : defsPaths { st with requireStack := st.requireStack ++ [p] } =
                  defsPaths st := rfl
              rw [hd0, List.map_append, List.append_assoc]
              rfl
            · intro q hq
              rw [List.map_append] at hq
              rcases List.mem_append.mp hq with h | h
              · intro hmem
                exact hs1 q h (List.mem_append.mpr (Or.inl hmem))
              · have : q = p := by
                  rcases List.mem_map.mp h with ⟨kv, hkv, hfst⟩
                  rcases List.mem_singleton.mp hkv with rfl
                  exact hfst.symm
                rw [this]
                exact hpnotstack
            · intro hnodup
              have hn2 := hn1 hnodup
              have hpnotc1 : p ∉ cachePaths st :=
                lookupAssoc_none_not_mem hnc
              have hpnotn1 : p ∉ n1.map (·.1) := by
                intro hmem
                exact hs1 p hmem (List.mem_append.mpr (Or.inr (List.mem_singleton.mpr rfl)))
              show (cachePaths { st4 with moduleCache := st4.moduleCache ++ [(p, mv)] }).Nodup
              have hcp : cachePaths { st4 with moduleCache := st4.moduleCache ++ [(p, mv)] } =
                  cachePaths st4 ++ [p] := by
                dsimp only [cachePaths]
                rw [List.map_append]
                rfl
              rw [hcp]
              have hcp4 : cachePaths st4 = cachePaths Q.1 := by
                dsimp only [cachePaths]
                rw [hbc]
              rw [hcp4]
              have hq1 : cachePaths Q.1 = cachePaths st ++ n1.map (·.1) := by
                dsimp only [cachePaths]
                rw [hc1, List.map_append]
              refine List.Nodup.append ?_ (List.nodup_singleton p) ?_
              · have := hn2
                dsimp only [cachePaths] at this ⊢
                exact this
              · intro a ha hb2
                rcases List.mem_singleton.mp hb2 with rfl
                rw [hq1] at ha
                rcases List.mem_append.mp ha with h | h
                · exact hpnotc1 h
                · exact hpnotn1 h

end Bundle

namespace Bundle

/-- The diamond scenario `A → {B, C} → D`: the entry block requires `B` and
`C`, each of which requires `D`. -/
def envDiamond : BundleEnv := {
  files := [("B", .luaFile ⟨[], some (.ret [.requireCall "D"])⟩),
            ("C", .luaFile ⟨[], some (.ret [.requireCall "D"])⟩),
            ("D", .luaFile ⟨[], some (.ret [.strE "dee"])⟩)]
  excluded := fun _ => false
  absolutePathOf := fun _ => none
  instancePathOf := fun _ _ => none
  parsedPathOf := fun _ => ⟨.script, []⟩
  modulesIdentifier := "__M" }

/-- The diamond scenario's entry block. -/
def diamondEntry : LBlock :=
  ⟨[.localAssign "b" (.requireCall "B"), .localAssign "c" (.requireCall "C")],
    none⟩

/-- C3: module inlining is memoized by resolved path.  (1) A require of a
path already in the module cache returns the cached expression and changes
nothing.  (2) In any full bundling run the recorded module definitions'
paths are exactly the module cache's keys, without duplicates — the
module-definition builder runs at most once per resolved path.  (3) In the
diamond `A → {B, C} → D` the contents of `D` appear exactly once in the
output: one module definition holds `D`'s body, and both `B`'s and `C`'s
modules return a reference to it. -/
theorem C3_memoization :
    (∀ (env : BundleEnv) (fuel : Nat) (st : BundlerState) (p r : String)
        (e : LExpr), lookupAssoc st.moduleCache p = some e →
      inlineRequireF env (fuel + 1) st p r = (st, .ok e)) ∧
    (∀ (env : BundleEnv) (fuel : Nat) (src : String) (b : LBlock),
      defsPaths (processEntryBlock env fuel src b).1 =
        cachePaths (processEntryBlock env fuel src b).1 ∧
      (defsPaths (processEntryBlock env fuel src b).1).Nodup) ∧
    ((processEntryBlock envDiamond 4 "main" diamondEntry).2 =
      .ok ⟨[.localDecl "__M", .assignModulesTable "__M",
        .moduleFunctions
          [⟨"a", ⟨[], some (.ret [.strE "dee"])⟩, "D"⟩,
           ⟨"b", ⟨[], some (.ret [.moduleRef "a"])⟩, "B"⟩,
           ⟨"c", ⟨[], some (.ret [.moduleRef "a"])⟩, "C"⟩],
        .plain (.localAssign "b" (.moduleRef "b")),
        .plain (.localAssign "c" (.moduleRef "c"))], none⟩ ∧
    ((processEntryBlock envDiamond 4 "main" diamondEntry).1.moduleDefinitions.filter
      (fun d => d.path == "D")).length = 1) := by
  refine ⟨?_, ?_, ?_, ?_⟩
  · intro env fuel st p r e hc
    rw [inlineRequireF, hc]
  · intro env fuel src b
    have hlock : Lock initialState
        (processBlockWith (tryInlineCall env fuel src) initialState b).1 :=
      lock_processBlockWith
        (fun st p =>
          lock_tryInlineCallWith
            (fun a b' c => lock_inlineRequireF fuel a b' c) src st p)
        initialState b
    obtain ⟨hstk, new, hc1, hd1, hs1, hn1⟩ := hlock
    have hini : defsPaths initialState = [] := rfl
    have hinic : cachePaths initialState = [] := rfl
    constructor
    · show defsPaths (processBlockWith (tryInlineCall env fuel src) initialState b).1 = _
      rw [hd1, hini, List.nil_append]
      show _ = cachePaths (processBlockWith (tryInlineCall env fuel src) initialState b).1
      dsimp only [cachePaths]
      rw [hc1]
      rfl
    · show (defsPaths (processBlockWith (tryInlineCall env fuel src) initialState b).1).Nodup
      rw [hd1, hini, List.nil_append]
      have := hn1 (by rw [hinic]; exact List.nodup_nil)
      dsimp only [cachePaths] at this
      rw [hc1] at this
      simpa using this
  · rfl
  · rfl

/-- C3 (witness): the cached-return case at a concrete state: a require of
`D` with `D` already cached returns the cached expression unchanged. -/
theorem C3_memoization_witness :
    inlineRequireF envDiamond 1 ⟨[("D", .nilE)], [], [], [], 0, []⟩ "D" "game.D" =
      (⟨[("D", .nilE)], [], [], [], 0, []⟩, .ok .nilE) :=
  C3_memoization.1 envDiamond 0 ⟨[("D", .nilE)], [], [], [], 0, []⟩ "D" "game.D"
    .nilE rfl

end Bundle

namespace Bundle

/-- A prefix expression that is a chain of plain field accesses rooted at
the `game` identifier (no method call, in particular no `GetService`). -/
def isGameFieldChain : PrefExpr → Bool
  | .ident n => n == "game"
  | .fieldAccess b _ => isGameFieldChain b
  | .methodCall _ _ _ => false

/-- All components are plain children. -/
def allChildren : List Rojo.InstancePathComponent → Bool
  | [] => true
  | .child _ :: rest => allChildren rest
  | _ => false

theorem gamePrefixComponents_chain :
    ∀ (rest : List Rojo.InstancePathComponent) (pre : PrefExpr),
      allChildren rest = true → isGameFieldChain pre = true →
      isGameFieldChain (gamePrefixComponents pre rest) = true := by
  intro rest
  induction rest with
  | nil => intro pre _ hpre; exact hpre
  | cons c rest ih =>
    intro pre hall hpre
    cases c with
    | parent => simp [allChildren] at hall
    | child n =>
      rw [gamePrefixComponents]
      exact ih _ (by simpa [allChildren] using hall) hpre
    | ancestor n => simp [allChildren] at hall

theorem id_processExprWith
    {tc : BundlerState → String → BundlerState × Option LExpr}
    (htc : ∀ st p, (tc st p).1 = st) (st : BundlerState) (e : LExpr) :
    (processExprWith tc st e).1 = st := by
  cases e with
  | requireCall p =>
    unfold processExprWith
    dsimp only
    split
    · rename_i st' e' heq
      have h := htc st p
      rw [heq] at h
      exact h
    · rename_i st' heq
      have h := htc st p
      rw [heq] at h
      exact h
  | requireArg a => rfl
  | moduleRef n => rfl
  | nilE => rfl
  | strE s => rfl
  | other t => rfl

theorem id_processExprsWith
    {tc : BundlerState → String → BundlerState × Option LExpr}
    (htc : ∀ st p, (tc st p).1 = st) :
    ∀ (es : List LExpr) (st : BundlerState),
      (processExprsWith tc st es).1 = st := by
  intro es
  induction es with
  | nil => intro st; rfl
  | cons e rest ih =>
    intro st
    unfold processExprsWith
    dsimp only
    rw [ih, id_processExprWith htc]

theorem id_processStmtWith
    {tc : BundlerState → String → BundlerState × Option LExpr}
    (htc : ∀ st p, (tc st p).1 = st) (st : BundlerState) (s : LStmt) :
    (processStmtWith tc st s).1 = st := by
  cases s with
  | localAssign n v => exact id_processExprWith htc st v
  | exprStat e => exact id_processExprWith htc st e

theorem id_processStmtsWith
    {tc : BundlerState → String → BundlerState × Option LExpr}
    (htc : ∀ st p, (tc st p).1 = st) :
    ∀ (ss : List LStmt) (st : BundlerState),
      (processStmtsWith tc st ss).1 = st := by
  intro ss
  induction ss with
  | nil => intro st; rfl
  | cons s rest ih =>
    intro st
    unfold processStmtsWith
    dsimp only
    rw [ih, id_processStmtWith htc]

theorem id_processBlockWith
    {tc : BundlerState → String → BundlerState × Option LExpr}
    (htc : ∀ st p, (tc st p).1 = st) (st : BundlerState) (b : LBlock) :
    (processBlockWith tc st b).1 = st := by
  unfold processBlockWith
  dsimp only
  split
  · rw [id_processExprsWith htc, id_processStmtsWith htc]
  · rw [id_processStmtsWith htc]

/-- The excluded-require scenario: the entry file requires `M.lua`, the
exclude glob matches it, and the manifest resolves `M.lua` to
`ReplicatedStorage.M` below the data-model root. -/
def envExcl : BundleEnv := {
  files := [("M.lua", .luaFile ⟨[], some (.ret [.strE "m"])⟩)]
  excluded := fun p => p == "M.lua"
  absolutePathOf := fun p => if p == "M.lua" then
      some ⟨.root, [.child "ReplicatedStorage", .child "M"]⟩ else none
  instancePathOf := fun _ _ => none
  parsedPathOf := fun _ => ⟨.script, []⟩
  modulesIdentifier := "__M" }

/-- The excluded-require scenario's entry block. -/
def exclEntry : LBlock := ⟨[.localAssign "m" (.requireCall "M.lua")], none⟩

end Bundle

namespace Bundle

theorem allChildren_of_forall :
    ∀ (l : List Rojo.InstancePathComponent),
      (∀ c ∈ l, ∃ n, c = .child n) → allChildren l = true := by
  intro l
  induction l with
  | nil => intro _; rfl
  | cons c rest ih =>
    intro h
    obtain ⟨n, hn⟩ := h c (List.mem_cons_self _ _)
    subst hn
    rw [allChildren]
    exact ih (fun c' hc' => h c' (List.mem_cons_of_mem _ hc'))

/-- C6: the exclude rewrite.  (1) `try_inline_call` on an excluded require
leaves the call in place with its argument rewritten to the game prefix of
the resolved rewrite path — when the manifest yields an absolute data-model
path, that path — and changes no processor state.  (2) Every path produced
by `get_absolute_instance_path` is rooted at the data model and its game
prefix is a pure chain of plain field accesses on `game` (no `GetService`).
(3) When every require is excluded, no module definition is recorded and
the output block consists of plain statements only — no modules-identifier
declaration, no load table.  (4) The concrete scenario: the entry requiring
the excluded `M.lua` bundles to `require(game.ReplicatedStorage.M)` with no
module table. -/
theorem C6_exclude_rewrite :
    (∀ (env : BundleEnv)
        (inline : BundlerState → String → String → BundlerState × Except String LExpr)
        (src : String) (st : BundlerState) (p : String) (q : Rojo.InstancePath),
      env.excluded p = true → env.absolutePathOf p = some q →
      tryInlineCallWith env inline src st p =
        (st, some (.requireArg (instancePathToGamePrefix q)))) ∧
    (∀ (fuel : Nat) (m : Rojo.RojoSourcemap) (t : String) (q : Rojo.InstancePath),
      Rojo.getAbsoluteInstancePath fuel m t = some q →
      q.root = .root ∧ isGameFieldChain (instancePathToGamePrefix q) = true) ∧
    (∀ (env : BundleEnv) (fuel : Nat) (src : String) (b : LBlock),
      (∀ p, env.excluded p = true) →
      (processEntryBlock env fuel src b).1.moduleDefinitions = [] ∧
      ∃ (ss : List LStmt) (ls : Option LastStat),
        (processEntryBlock env fuel src b).2 = .ok ⟨ss.map .plain, ls⟩) ∧
    (processEntryBlock envExcl 4 "main" exclEntry).2 =
      .ok ⟨[.plain (.localAssign "m" (.requireArg
        (.fieldAccess (.fieldAccess (.ident "game") "ReplicatedStorage") "M")))],
        none⟩ := by
  refine ⟨?_, ?_, ?_, ?_⟩
  · intro env inline src st p q hex habs
    unfold tryInlineCallWith
    simp [hex, habs]
  · intro fuel m t q h
    unfold Rojo.getAbsoluteInstancePath at h
    cases hf : Rojo.findNode fuel m.rootNode t with
    | none => rw [hf] at h; cases h
    | some tn =>
      rw [hf] at h
      obtain ⟨hroot, extra, hcomp, hchild, _⟩ := Rojo.indexDescendants_shape h
      cases q with
      | mk qr qc =>
        simp only [Rojo.InstancePath.fromRoot] at hroot hcomp
        refine ⟨hroot, ?_⟩
        simp only [List.nil_append] at hcomp
        subst hroot
        subst hcomp
        cases hx : qc with
        | nil => rfl
        | cons c rest =>
          obtain ⟨n, hn⟩ := hchild c (by rw [hx]; exact List.mem_cons_self _ _)
          subst hn
          rw [instancePathToGamePrefix]
          exact gamePrefixComponents_chain rest _
            (allChildren_of_forall rest
              (fun c' hc' => hchild c' (by rw [hx]; exact List.mem_cons_of_mem _ hc')))
            rfl
  · intro env fuel src b hall
    have hid : ∀ (st : BundlerState) (p : String),
        ((tryInlineCall env fuel src) st p).1 = st := by
      intro st p
      unfold tryInlineCall tryInlineCallWith
      simp [hall p]
    have hfin : (processBlockWith (tryInlineCall env fuel src) initialState b).1 =
        initialState := id_processBlockWith hid initialState b
    constructor
    · show (processBlockWith (tryInlineCall env fuel src) initialState b).1.moduleDefinitions = []
      rw [hfin]
      rfl
    · refine ⟨(processBlockWith (tryInlineCall env fuel src) initialState b).2.stmts,
        (processBlockWith (tryInlineCall env fuel src) initialState b).2.lastStat, ?_⟩
      unfold processEntryBlock processBlock
      dsimp only
      rw [hfin]
      rfl
  · rfl

end Bundle

namespace Bundle

/-- C6 (witness): the exclude rewrite applied to the concrete scenario, and
the absolute-path/pure-chain facts on the `manifestDeep` manifest. -/
theorem C6_exclude_rewrite_witness :
    tryInlineCallWith envExcl (fun st _ _ => (st, .error "unused")) "main"
        initialState "M.lua" =
      (initialState, some (.requireArg
        (.fieldAccess (.fieldAccess (.ident "game") "ReplicatedStorage") "M"))) ∧
    (∃ q, Rojo.getAbsoluteInstancePath 100000 Rojo.manifestDeep "g.lua" = some q ∧
      q.root = .root ∧ isGameFieldChain (instancePathToGamePrefix q) = true) := by
  constructor
  · have h := C6_exclude_rewrite.1 envExcl (fun st _ _ => (st, .error "unused"))
      "main" initialState "M.lua" ⟨.root, [.child "ReplicatedStorage", .child "M"]⟩
      rfl rfl
    rw [h]
    rfl
  · refine ⟨⟨.root, [.child "SB", .child "g"]⟩, rfl, ?_⟩
    exact C6_exclude_rewrite.2.1 100000 Rojo.manifestDeep "g.lua" _ rfl

end Bundle

namespace Bundle

/-- The `v1`/`v2` cyclic scenario of the bundle tests: `v1` returns
`require(v2)` and `v2` returns `require(v1)`. -/
def envCyc : BundleEnv := {
  files := [("v1", .luaFile ⟨[], some (.ret [.requireCall "v2"])⟩),
            ("v2", .luaFile ⟨[], some (.ret [.requireCall "v1"])⟩)]
  excluded := fun _ => false
  absolutePathOf := fun _ => none
  instancePathOf := fun _ _ => none
  parsedPathOf := fun _ => ⟨.script, []⟩
  modulesIdentifier := "__M" }

/-- The cyclic scenario's entry block, requiring `v1`. -/
def cycEntry : LBlock := ⟨[.localAssign "value" (.requireCall "v1")], none⟩

/-- The require path of an expression, when it is a require call. -/
def exprRequire : LExpr → Option String
  | .requireCall p => some p
  | _ => none

/-- The require path of a statement's expression. -/
def stmtRequire : LStmt → Option String
  | .localAssign _ v => exprRequire v
  | .exprStat e => exprRequire e

/-- Every require path occurring in a block. -/
def blockRequires (b : LBlock) : List String :=
  b.stmts.filterMap stmtRequire ++
    (match b.lastStat with
     | some (.ret es) => es.filterMap exprRequire
     | _ => [])

/-- The require-graph edge: file `q` is a Lua resource whose block requires
`q'`. -/
def requireEdgeB (env : BundleEnv) (q q' : String) : Bool :=
  match lookupAssoc env.files q with
  | some (.luaFile b) => (blockRequires b).contains q'
  | _ => false

/-- A chain of require edges starting at `q` through the listed files. -/
def chainB (env : BundleEnv) : String → List String → Bool
  | _, [] => true
  | q, q' :: rest => requireEdgeB env q q' && chainB env q' rest

/-- `findIdx?` over strings: the element found splits the list, everything
before it fails the predicate. -/
theorem findIdxS_split {p : String → Bool} :
    ∀ {l : List String} {j s : Nat}, List.findIdx? p l s = some j →
      ∃ Q c S, l = Q ++ c :: S ∧ j = s + Q.length ∧ p c = true ∧
        ∀ y ∈ Q, p y = false := by
  intro l
  induction l with
  | nil => intro j s h; simp [List.findIdx?] at h
  | cons x rest ih =>
    intro j s h
    rw [List.findIdx?] at h
    by_cases hx : p x = true
    · rw [hx] at h
      simp only [if_true] at h
      exact ⟨[], x, rest, rfl, by simp [← Option.some.inj h], hx, by simp⟩
    · rw [eq_false_of_ne_true hx] at h
      simp only [Bool.false_eq_true, if_false] at h
      obtain ⟨Q, c, S, hsplit, hj, hc, hq⟩ := ih h
      refine ⟨x :: Q, c, S, by rw [hsplit]; rfl, by rw [hj]; simp; omega, hc, ?_⟩
      intro y hy
      rcases List.mem_cons.mp hy with rfl | hy'
      · exact eq_false_of_ne_true hx
      · exact hq y hy'

/-- C2 (cyclic-branch equation): a require of a path that is not cached and
already sits on the require stack returns — without touching the state —
the cyclic error built from the stack slice starting at that path's first
occurrence, with the path appended; the slice indeed starts with the
repeated path. -/
theorem cyclic_branch_eq {env : BundleEnv} {fuel : Nat} {st : BundlerState}
    {p r : String} {i : Nat}
    (hc : lookupAssoc st.moduleCache p = none)
    (hi : st.requireStack.findIdx? (fun q => q == p) = some i) :
    inlineRequireF env (fuel + 1) st p r =
      (st, .error (cyclicErrorMessage (st.requireStack.drop i ++ [p]))) ∧
    (st.requireStack.drop i).head? = some p := by
  constructor
  · rw [inlineRequireF, hc, hi]
  · obtain ⟨Q, c, S, hsplit, hj, hcp, _⟩ := findIdxS_split hi
    have hcp' : c = p := eq_of_beq hcp
    rw [hsplit, hj, Nat.zero_add, List.drop_left, hcp']
    rfl

end Bundle

namespace Bundle

/-- The module cache is topologically ordered along require edges: every
cached file's require targets are cached strictly earlier. -/
def TopoCache (env : BundleEnv) (cache : List (String × LExpr)) : Prop :=
  ∀ pre q e post, cache = pre ++ (q, e) :: post →
    ∀ q', requireEdgeB env q q' = true → q' ∈ pre.map (·.1)

/-- The error-free invariant of a bundler state: while no error has been
recorded, no path has been marked skipped and the cache is topologically
ordered. -/
def Inv (env : BundleEnv) (st : BundlerState) : Prop :=
  st.errors = [] → st.skipModulePaths = [] ∧ TopoCache env st.moduleCache

theorem lookupAssoc_some_mem {α : Type} {l : List (String × α)} {k : String}
    {v : α} (h : lookupAssoc l k = some v) : k ∈ l.map (·.1) := by
  unfold lookupAssoc at h
  cases hf : l.find? (fun kv => kv.1 == k) with
  | none => rw [hf] at h; cases h
  | some kv =>
    have hbeq := List.find?_some hf
    have hkv : kv.1 = k := eq_of_beq hbeq
    exact hkv ▸ List.mem_map_of_mem _ (List.mem_of_find?_eq_some hf)

theorem errs_nil_of_ext {st st' : BundlerState} (h : Ext st st')
    (hn : st'.errors = []) : st.errors = [] := by
  obtain ⟨l, hl⟩ := h.errors
  rw [hl] at hn
  exact (List.append_eq_nil.mp hn).1

theorem cache_mono_ext {st st' : BundlerState} (h : Ext st st') {q : String}
    (hq : q ∈ cachePaths st) : q ∈ cachePaths st' := by
  obtain ⟨l, hl⟩ := h.cache
  dsimp only [cachePaths] at hq ⊢
  rw [hl, List.map_append]
  exact List.mem_append.mpr (Or.inl hq)

theorem append_singleton_split {α : Type} :
    ∀ (pre l : List α) (x y : α) (post : List α),
      l ++ [x] = pre ++ y :: post →
      (pre = l ∧ y = x ∧ post = []) ∨
        (∃ post', post = post' ++ [x] ∧ l = pre ++ y :: post') := by
  intro pre
  induction pre with
  | nil =>
    intro l x y post h
    cases l with
    | nil =>
      simp only [List.nil_append] at h
      obtain ⟨hy, hpost⟩ := List.cons.inj h
      exact Or.inl ⟨rfl, hy.symm, hpost.symm⟩
    | cons a t =>
      simp only [List.cons_append, List.nil_append] at h
      obtain ⟨hy, hpost⟩ := List.cons.inj h
      exact Or.inr ⟨t, hpost.symm, by rw [List.nil_append, hy]⟩
  | cons b pre' ih =>
    intro l x y post h
    cases l with
    | nil =>
      simp only [List.nil_append, List.cons_append] at h
      obtain ⟨hb, ht⟩ := List.cons.inj h
      exact absurd ht.symm (by simp)
    | cons a t =>
      simp only [List.cons_append] at h
      obtain ⟨hb, ht⟩ := List.cons.inj h
      rcases ih t x y post ht with ⟨h1, h2, h3⟩ | ⟨post', h1, h2⟩
      · exact Or.inl ⟨by rw [hb, h1], h2, h3⟩
      · exact Or.inr ⟨post', h1, by rw [hb, h2]; rfl⟩

theorem topo_append {env : BundleEnv} {cache : List (String × LExpr)}
    {p : String} {mv : LExpr} (ht : TopoCache env cache)
    (hcov : ∀ q', requireEdgeB env p q' = true → q' ∈ cache.map (·.1)) :
    TopoCache env (cache ++ [(p, mv)]) := by
  intro pre q e post heq q' hedge
  rcases append_singleton_split pre cache (p, mv) (q, e) post heq with
    ⟨h1, h2, h3⟩ | ⟨post', h1, h2⟩
  · obtain ⟨hq, he⟩ := Prod.mk.injEq _ _ _ _ ▸ h2
    rw [h1]
    exact hcov q' (hq ▸ hedge)
  · exact ht pre q e post' h2 q' hedge

end Bundle

namespace Bundle

theorem inv_processExprWith {env : BundleEnv}
    {tc : BundlerState → String → BundlerState × Option LExpr}
    (htci : ∀ st p, Inv env st → Inv env (tc st p).1 ∧
      ((tc st p).1.errors = [] → p ∈ cachePaths (tc st p).1)) :
    ∀ (st : BundlerState) (e : LExpr), Inv env st →
      Inv env (processExprWith tc st e).1 ∧
      ((processExprWith tc st e).1.errors = [] →
        ∀ q', exprRequire e = some q' →
          q' ∈ cachePaths (processExprWith tc st e).1) := by
  intro st e hinv
  cases e with
  | requireCall p =>
    unfold processExprWith
    dsimp only
    split
    · rename_i st' e' heq
      have h := htci st p hinv
      rw [heq] at h
      refine ⟨h.1, fun hn q' hq' => ?_⟩
      have hpq : p = q' := Option.some.inj hq'
      exact hpq ▸ h.2 hn
    · rename_i st' heq
      have h := htci st p hinv
      rw [heq] at h
      refine ⟨h.1, fun hn q' hq' => ?_⟩
      have hpq : p = q' := Option.some.inj hq'
      exact hpq ▸ h.2 hn
  | requireArg a => exact ⟨hinv, fun _ q' hq' => Option.noConfusion hq'⟩
  | moduleRef n => exact ⟨hinv, fun _ q' hq' => Option.noConfusion hq'⟩
  | nilE => exact ⟨hinv, fun _ q' hq' => Option.noConfusion hq'⟩
  | strE s => exact ⟨hinv, fun _ q' hq' => Option.noConfusion hq'⟩
  | other t => exact ⟨hinv, fun _ q' hq' => Option.noConfusion hq'⟩

theorem inv_processExprsWith {env : BundleEnv}
    {tc : BundlerState → String → BundlerState × Option LExpr}
    (htce : ∀ st p, Ext st (tc st p).1)
    (htci : ∀ st p, Inv env st → Inv env (tc st p).1 ∧
      ((tc st p).1.errors = [] → p ∈ cachePaths (tc st p).1)) :
    ∀ (es : List LExpr) (st : BundlerState), Inv env st →
      Inv env (processExprsWith tc st es).1 ∧
      ((processExprsWith tc st es).1.errors = [] →
        ∀ q' ∈ es.filterMap exprRequire,
          q' ∈ cachePaths (processExprsWith tc st es).1) := by
  intro es
  induction es with
  | nil => intro st hinv; exact ⟨hinv, fun _ q' hq' => by simp at hq'⟩
  | cons e rest ih =>
    intro st hinv
    unfold processExprsWith
    dsimp only
    have h1 := inv_processExprWith htci st e hinv
    have h2 := ih (processExprWith tc st e).1 h1.1
    have hext2 : Ext (processExprWith tc st e).1
        (processExprsWith tc (processExprWith tc st e).1 rest).1 :=
      ext_processExprsWith htce rest _
    refine ⟨h2.1, fun hn q' hq' => ?_⟩
    have hn1 : (processExprWith tc st e).1.errors = [] := errs_nil_of_ext hext2 hn
    rw [List.filterMap_cons] at hq'
    cases hre : exprRequire e with
    | none =>
      rw [hre] at hq'
      exact h2.2 hn q' hq'
    | some p0 =>
      rw [hre] at hq'
      rcases List.mem_cons.mp hq' with rfl | hmem
      · exact cache_mono_ext hext2 (h1.2 hn1 q' hre)
      · exact h2.2 hn q' hmem

theorem inv_processStmtWith {env : BundleEnv}
    {tc : BundlerState → String → BundlerState × Option LExpr}
    (htci : ∀ st p, Inv env st → Inv env (tc st p).1 ∧
      ((tc st p).1.errors = [] → p ∈ cachePaths (tc st p).1)) :
    ∀ (st : BundlerState) (s : LStmt), Inv env st →
      Inv env (processStmtWith tc st s).1 ∧
      ((processStmtWith tc st s).1.errors = [] →
        ∀ q', stmtRequire s = some q' →
          q' ∈ cachePaths (processStmtWith tc st s).1) := by
  intro st s hinv
  cases s with
  | localAssign n v =>
    unfold processStmtWith
    dsimp only
    have h1 := inv_processExprWith htci st v hinv
    exact ⟨h1.1, fun hn q' hq' => h1.2 hn q' hq'⟩
  | exprStat e =>
    unfold processStmtWith
    dsimp only
    have h1 := inv_processExprWith htci st e hinv
    exact ⟨h1.1, fun hn q' hq' => h1.2 hn q' hq'⟩

theorem inv_processStmtsWith {env : BundleEnv}
    {tc : BundlerState → String → BundlerState × Option LExpr}
    (htce : ∀ st p, Ext st (tc st p).1)
    (htci : ∀ st p, Inv env st → Inv env (tc st p).1 ∧
      ((tc st p).1.errors = [] → p ∈ cachePaths (tc st p).1)) :
    ∀ (ss : List LStmt) (st : BundlerState), Inv env st →
      Inv env (processStmtsWith tc st ss).1 ∧
      ((processStmtsWith tc st ss).1.errors = [] →
        ∀ q' ∈ ss.filterMap stmtRequire,
          q' ∈ cachePaths (processStmtsWith tc st ss).1) := by
  intro ss
  induction ss with
  | nil => intro st hinv; exact ⟨hinv, fun _ q' hq' => by simp at hq'⟩
  | cons s rest ih =>
    intro st hinv
    unfold processStmtsWith
    dsimp only
    have h1 := inv_processStmtWith htci st s hinv
    have h2 := ih (processStmtWith tc st s).1 h1.1
    have hext2 : Ext (processStmtWith tc st s).1
        (processStmtsWith tc (processStmtWith tc st s).1 rest).1 :=
      ext_processStmtsWith htce rest _
    refine ⟨h2.1, fun hn q' hq' => ?_⟩
    have hn1 : (processStmtWith tc st s).1.errors = [] := errs_nil_of_ext hext2 hn
    rw [List.filterMap_cons] at hq'
    cases hre : stmtRequire s with
    | none =>
      rw [hre] at hq'
      exact h2.2 hn q' hq'
    | some p0 =>
      rw [hre] at hq'
      rcases List.mem_cons.mp hq' with rfl | hmem
      · exact cache_mono_ext hext2 (h1.2 hn1 q' hre)
      · exact h2.2 hn q' hmem

theorem inv_processBlockWith {env : BundleEnv}
    {tc : BundlerState → String → BundlerState × Option LExpr}
    (htce : ∀ st p, Ext st (tc st p).1)
    (htci : ∀ st p, Inv env st → Inv env (tc st p).1 ∧
      ((tc st p).1.errors = [] → p ∈ cachePaths (tc st p).1)) :
    ∀ (st : BundlerState) (b : LBlock), Inv env st →
      Inv env (processBlockWith tc st b).1 ∧
      ((processBlockWith tc st b).1.errors = [] →
        ∀ q' ∈ blockRequires b, q' ∈ cachePaths (processBlockWith tc st b).1) := by
  intro st b hinv
  unfold processBlockWith blockRequires
  dsimp only
  cases hls : b.lastStat with
  | none =>
    dsimp only
    have h1 := inv_processStmtsWith htce htci b.stmts st hinv
    refine ⟨h1.1, fun hn q' hq' => ?_⟩
    rw [List.append_nil] at hq'
    exact h1.2 hn q' hq'
  | some ls =>
    cases ls with
    | ret es =>
      dsimp only
      have h1 := inv_processStmtsWith htce htci b.stmts st hinv
      have h2 := inv_processExprsWith htce htci es
        (processStmtsWith tc st b.stmts).1 h1.1
      have hext2 : Ext (processStmtsWith tc st b.stmts).1
          (processExprsWith tc (processStmtsWith tc st b.stmts).1 es).1 :=
        ext_processExprsWith htce es _
      refine ⟨h2.1, fun hn q' hq' => ?_⟩
      have hn1 : (processStmtsWith tc st b.stmts).1.errors = [] :=
        errs_nil_of_ext hext2 hn
      rcases List.mem_append.mp hq' with hmem | hmem
      · exact cache_mono_ext hext2 (h1.2 hn1 q' hmem)
      · exact h2.2 hn q' hmem
    | brk =>
      dsimp only
      have h1 := inv_processStmtsWith htce htci b.stmts st hinv
      refine ⟨h1.1, fun hn q' hq' => ?_⟩
      rw [List.append_nil] at hq'
      exact h1.2 hn q' hq'

end Bundle

namespace Bundle

theorem inv_tryInlineCallWith {env : BundleEnv}
    {inline : BundlerState → String → String → BundlerState × Except String LExpr}
    (hexcl : ∀ p, env.excluded p = false)
    (hii : ∀ st p r, Inv env st → Inv env (inline st p r).1 ∧
      (∀ e, (inline st p r).2 = .ok e → p ∈ cachePaths (inline st p r).1)) :
    ∀ (src : String) (st : BundlerState) (p : String), Inv env st →
      Inv env (tryInlineCallWith env inline src st p).1 ∧
      ((tryInlineCallWith env inline src st p).1.errors = [] →
        p ∈ cachePaths (tryInlineCallWith env inline src st p).1) := by
  intro src st p hinv
  unfold tryInlineCallWith
  simp only [hexcl p, Bool.false_eq_true, if_false]
  split
  · rename_i hskip
    refine ⟨hinv, fun hn => ?_⟩
    have hsk := (hinv hn).1
    rw [hsk] at hskip
    simp at hskip
  · split
    · rename_i st' e heq
      have h := hii st p (instancePathToGameString
        ((env.instancePathOf src p).getD (env.parsedPathOf p))) hinv
      rw [heq] at h
      exact ⟨h.1, fun _ => h.2 e rfl⟩
    · rename_i st' msg heq
      refine ⟨fun hn => ?_, fun hn => ?_⟩
      · exact absurd hn (by simp)
      · exact absurd hn (by simp)

theorem inv_requireResourceWith {env : BundleEnv}
    {tca : String → BundlerState → String → BundlerState × Option LExpr}
    (htcae : ∀ src st p, Ext st (tca src st p).1)
    (htcai : ∀ src st p, Inv env st → Inv env (tca src st p).1 ∧
      ((tca src st p).1.errors = [] → p ∈ cachePaths (tca src st p).1)) :
    ∀ (st : BundlerState) (path : String), Inv env st →
      Inv env (requireResourceWith env tca st path).1 ∧
      (∀ r', (requireResourceWith env tca st path).2 = .ok r' →
        (requireResourceWith env tca st path).1.errors = [] →
        ∀ q', requireEdgeB env path q' = true →
          q' ∈ cachePaths (requireResourceWith env tca st path).1) := by
  intro st path hinv
  unfold requireResourceWith
  cases hf : lookupAssoc env.files path with
  | none => exact ⟨hinv, fun r' h => Except.noConfusion h⟩
  | some r =>
    cases r with
    | luaFile b =>
      dsimp only
      have h := inv_processBlockWith (htcae path) (htcai path) st b hinv
      refine ⟨h.1, fun r' _ hn q' hedge => ?_⟩
      unfold requireEdgeB at hedge
      rw [hf] at hedge
      have hmem : q' ∈ blockRequires b := by simpa using hedge
      exact h.2 hn q' hmem
    | dataFile e =>
      refine ⟨hinv, fun r' _ _ q' hedge => ?_⟩
      unfold requireEdgeB at hedge
      rw [hf] at hedge
      cases hedge
    | txtFile c =>
      refine ⟨hinv, fun r' _ _ q' hedge => ?_⟩
      unfold requireEdgeB at hedge
      rw [hf] at hedge
      cases hedge
    | invalidExtension => exact ⟨hinv, fun r' h => Except.noConfusion h⟩

theorem inv_inlineRequireF {env : BundleEnv}
    (hexcl : ∀ p, env.excluded p = false) :
    ∀ (fuel : Nat) (st : BundlerState) (p r : String), Inv env st →
      Inv env (inlineRequireF env fuel st p r).1 ∧
      (∀ e, (inlineRequireF env fuel st p r).2 = .ok e →
        p ∈ cachePaths (inlineRequireF env fuel st p r).1) := by
  intro fuel
  induction fuel with
  | zero => intro st p r hinv; exact ⟨hinv, fun e h => Except.noConfusion h⟩
  | succ f ih =>
    intro st p r hinv
    rw [inlineRequireF]
    split
    · rename_i e0 heq
      exact ⟨hinv, fun e _ => lookupAssoc_some_mem heq⟩
    · split
      · exact ⟨hinv, fun e h => Except.noConfusion h⟩
      · rename_i a1 hnc a2 hni
        dsimp only
        set Q := requireResourceWith env
          (fun src' st' p' =>
            tryInlineCallWith env
              (fun st'' p'' r'' => inlineRequireF env f st'' p'' r'')
              src' st' p')
          { st with requireStack := st.requireStack ++ [p] } p with hQ
        have hinv1 : Inv env { st with requireStack := st.requireStack ++ [p] } :=
          hinv
        have hQfacts : Inv env Q.1 ∧
            (∀ r', Q.2 = .ok r' → Q.1.errors = [] →
              ∀ q', requireEdgeB env p q' = true → q' ∈ cachePaths Q.1) := by
          rw [hQ]
          exact inv_requireResourceWith
            (fun src st' p' =>
              ext_tryInlineCallWith (fun a b c => ext_inlineRequireF f a b c)
                src st' p')
            (fun src st' p' hinv' =>
              inv_tryInlineCallWith hexcl (fun a b c hi => ih a b c hi) src st' p'
                hinv')
            _ p hinv1
        obtain ⟨hQi, hQcov⟩ := hQfacts
        have hQi3 : Inv env { Q.1 with requireStack := Q.1.requireStack.dropLast } :=
          hQi
        split
        · exact ⟨hQi3, fun e h => Except.noConfusion h⟩
        · rename_i r' heqr
          split
          · rename_i st4 e4 heqb
            have hb := buildModule_error_shape heqb
            rw [hb]
            exact ⟨hQi3, fun e h => Except.noConfusion h⟩
          · rename_i st4 mv heqb
            obtain ⟨hbc, hbd, hbs, hbe, hbk⟩ := buildModule_ok_shape heqb
            constructor
            · intro hn
              have hn4 : st4.errors =
                  ({ Q.1 with requireStack := Q.1.requireStack.dropLast } :
                    BundlerState).errors := hbe
              have hnQ : Q.1.errors = [] := by
                rw [hn4] at hn
                exact hn
              obtain ⟨hskQ, htopoQ⟩ := hQi hnQ
              constructor
              · show st4.skipModulePaths = []
                rw [hbk]
                exact hskQ
              · show TopoCache env (st4.moduleCache ++ [(p, mv)])
                rw [hbc]
                refine topo_append ?_ ?_
                · exact htopoQ
                · intro q' hedge
                  exact hQcov r' heqr hnQ q' hedge
            · intro e _
              show p ∈ cachePaths
                { st4 with moduleCache := st4.moduleCache ++ [(p, mv)] }
              dsimp only [cachePaths]
              rw [List.map_append]
              exact List.mem_append.mpr (Or.inr (by simp))

end Bundle

namespace Bundle

theorem mem_keys_first_split {α : Type} :
    ∀ (l : List (String × α)) (q : String), q ∈ l.map (·.1) →
      ∃ pre e post, l = pre ++ (q, e) :: post ∧ q ∉ pre.map (·.1) := by
  intro l
  induction l with
  | nil => intro q h; simp at h
  | cons kv t ih =>
    intro q h
    by_cases hk : kv.1 = q
    · exact ⟨[], kv.2, t, by rw [← hk]; simp, by simp⟩
    · have hmem : q ∈ t.map (·.1) := by
        rcases List.mem_map.mp h with ⟨kv', hkv', hfst⟩
        rcases List.mem_cons.mp hkv' with rfl | hkv''
        · exact absurd hfst hk
        · exact hfst ▸ List.mem_map_of_mem _ hkv''
      obtain ⟨pre, e, post, hsplit, hnot⟩ := ih q hmem
      refine ⟨kv :: pre, e, post, by rw [hsplit]; rfl, ?_⟩
      intro hq
      rcases List.mem_cons.mp hq with h1 | h1
      · exact hk h1.symm
      · exact hnot h1

theorem cons_split_unique :
    ∀ (a1 a2 b1 b2 : List String) (q : String),
      a1 ++ q :: b1 = a2 ++ q :: b2 → q ∉ a1 → q ∉ a2 → a1 = a2 := by
  intro a1
  induction a1 with
  | nil =>
    intro a2 b1 b2 q h hn1 hn2
    cases a2 with
    | nil => rfl
    | cons y s =>
      simp only [List.nil_append, List.cons_append] at h
      obtain ⟨hy, _⟩ := List.cons.inj h
      exact absurd (hy ▸ List.mem_cons_self y s) hn2
  | cons x t ih =>
    intro a2 b1 b2 q h hn1 hn2
    cases a2 with
    | nil =>
      simp only [List.nil_append, List.cons_append] at h
      obtain ⟨hx, _⟩ := List.cons.inj h
      exact absurd (hx ▸ List.mem_cons_self x t) hn1
    | cons y s =>
      simp only [List.cons_append] at h
      obtain ⟨hxy, ht⟩ := List.cons.inj h
      have := ih s b1 b2 q ht (fun hm => hn1 (List.mem_cons_of_mem _ hm))
        (fun hm => hn2 (List.mem_cons_of_mem _ hm))
      rw [hxy, this]

theorem cached_closed {env : BundleEnv} {cache : List (String × LExpr)}
    (ht : TopoCache env cache) {q q' : String}
    (hq : q ∈ cache.map (·.1)) (hedge : requireEdgeB env q q' = true) :
    q' ∈ cache.map (·.1) := by
  obtain ⟨pre, e, post, hsplit, _⟩ := mem_keys_first_split cache q hq
  have h := ht pre q e post hsplit q' hedge
  rw [hsplit, List.map_append]
  exact List.mem_append.mpr (Or.inl h)

theorem chain_last_cached {env : BundleEnv} {cache : List (String × LExpr)}
    (ht : TopoCache env cache) :
    ∀ (l : List String) (q : String), q ∈ cache.map (·.1) →
      chainB env q l = true → ∀ c, (q :: l).getLast? = some c →
      c ∈ cache.map (·.1) := by
  intro l
  induction l with
  | nil =>
    intro q hq _ c hc
    have : q = c := Option.some.inj hc
    exact this ▸ hq
  | cons c1 rest ih =>
    intro q hq hchain c hc
    rw [chainB] at hchain
    obtain ⟨hedge, hrest⟩ : requireEdgeB env q c1 = true ∧
        chainB env c1 rest = true := by simpa using hchain
    have hc1 : c1 ∈ cache.map (·.1) := cached_closed ht hq hedge
    exact ih c1 hc1 hrest c (by simpa using hc)

theorem edge_pos_lt {env : BundleEnv} {cache : List (String × LExpr)}
    (ht : TopoCache env cache) {q q' : String} {pre : List (String × LExpr)}
    {e : LExpr} {post : List (String × LExpr)}
    (hsplit : cache = pre ++ (q, e) :: post)
    (hedge : requireEdgeB env q q' = true) :
    ∃ pre' e' post', cache = pre' ++ (q', e') :: post' ∧
      q' ∉ pre'.map (·.1) ∧ pre'.length < pre.length := by
  have hq' := ht pre q e post hsplit q' hedge
  obtain ⟨a, e', bp, hpre, hnot⟩ := mem_keys_first_split pre q' hq'
  refine ⟨a, e', bp ++ (q, e) :: post, ?_, hnot, ?_⟩
  · rw [hsplit, hpre, List.append_assoc]
    rfl
  · rw [hpre]
    simp

theorem chain_desc {env : BundleEnv} {cache : List (String × LExpr)}
    (ht : TopoCache env cache) :
    ∀ (cyc : List String) (q : String) (pre : List (String × LExpr))
      (e : LExpr) (post : List (String × LExpr)),
      cache = pre ++ (q, e) :: post → chainB env q cyc = true → cyc ≠ [] →
      ∀ c, cyc.getLast? = some c →
      ∃ pre' e' post', cache = pre' ++ (c, e') :: post' ∧
        c ∉ pre'.map (·.1) ∧ pre'.length < pre.length := by
  intro cyc
  induction cyc with
  | nil => intro q pre e post _ _ hne _ _; exact absurd rfl hne
  | cons c1 rest ih =>
    intro q pre e post hsplit hchain _ c hc
    rw [chainB] at hchain
    obtain ⟨hedge, hrest⟩ : requireEdgeB env q c1 = true ∧
        chainB env c1 rest = true := by simpa using hchain
    obtain ⟨pre1, e1, post1, hsplit1, hnot1, hlt1⟩ := edge_pos_lt ht hsplit hedge
    cases rest with
    | nil =>
      have : c1 = c := Option.some.inj hc
      exact ⟨pre1, e1, post1, this ▸ hsplit1, this ▸ hnot1, hlt1⟩
    | cons r1 rt =>
      obtain ⟨pre2, e2, post2, hsplit2, hnot2, hlt2⟩ :=
        ih c1 pre1 e1 post1 hsplit1 hrest (by simp) c (by rw [← hc]; rfl)
      exact ⟨pre2, e2, post2, hsplit2, hnot2, Nat.lt_trans hlt2 hlt1⟩

theorem no_cycle {env : BundleEnv} {cache : List (String × LExpr)}
    (ht : TopoCache env cache) (c : String) (hc : c ∈ cache.map (·.1))
    (cyc : List String) (hne : cyc ≠ []) (hchain : chainB env c cyc = true)
    (hlast : cyc.getLast? = some c) : False := by
  obtain ⟨pre, e, post, hsplit, hnot⟩ := mem_keys_first_split cache c hc
  obtain ⟨pre', e', post', hsplit', hnot', hlt⟩ :=
    chain_desc ht cyc c pre e post hsplit hchain hne c hlast
  have hkeys : pre.map (·.1) ++ c :: post.map (·.1) =
      pre'.map (·.1) ++ c :: post'.map (·.1) := by
    have h1 := congrArg (List.map (·.1)) hsplit
    have h2 := congrArg (List.map (·.1)) hsplit'
    simp only [List.map_append, List.map_cons] at h1 h2
    rw [← h1, ← h2]
  have heqpre : pre.map (·.1) = pre'.map (·.1) :=
    cons_split_unique _ _ _ _ c hkeys hnot hnot'
  have : pre.length = pre'.length := by
    have := congrArg List.length heqpre
    simpa using this
  omega

end Bundle

namespace Bundle

/-- C2: cyclic requires fail the bundle.  (A) The `v1`/`v2` scenario yields
exactly the error `cyclic require detected with `v1` > `v2` > `v1``, and
the require closing the cycle is left as a require call (not inlined) in
`v2`'s recorded module.  (B) In general, a require of a non-cached path
already on the require stack returns, with the state untouched, the cyclic
error built from the stack slice beginning at that path's first occurrence
with the path appended — so the message names every file on the cycle in
stack order with the starting file repeated at the end.  (C) For every
require graph (with nothing excluded) containing a cycle reachable from the
entry block through require edges, bundling records an error and
`process_block` surfaces a failure. -/
theorem C2_cyclic_require :
    ((processEntryBlock envCyc 3 "main" cycEntry).2 =
        .error "cyclic require detected with `v1` > `v2` > `v1`" ∧
      (processEntryBlock envCyc 3 "main" cycEntry).1.moduleDefinitions =
        [⟨"a", ⟨[], some (.ret [.requireCall "v1"])⟩, "v2"⟩,
         ⟨"b", ⟨[], some (.ret [.moduleRef "a"])⟩, "v1"⟩]) ∧
    (∀ (env : BundleEnv) (fuel : Nat) (st : BundlerState) (p r : String)
        (i : Nat),
      lookupAssoc st.moduleCache p = none →
      st.requireStack.findIdx? (fun q => q == p) = some i →
      inlineRequireF env (fuel + 1) st p r =
        (st, .error (cyclicErrorMessage (st.requireStack.drop i ++ [p]))) ∧
      (st.requireStack.drop i).head? = some p) ∧
    (∀ (env : BundleEnv) (fuel : Nat) (src : String) (entry : LBlock)
        (w c : String) (walk cyc : List String),
      (∀ p, env.excluded p = false) →
      w ∈ blockRequires entry →
      chainB env w walk = true →
      (w :: walk).getLast? = some c →
      cyc ≠ [] → chainB env c cyc = true → cyc.getLast? = some c →
      (processEntryBlock env fuel src entry).1.errors ≠ [] ∧
      ∃ msg, (processEntryBlock env fuel src entry).2 = .error msg) := by
  refine ⟨⟨rfl, rfl⟩, fun env fuel st p r i hc hi => cyclic_branch_eq hc hi, ?_⟩
  intro env fuel src entry w c walk cyc hexcl hw hwalk hlastw hcne hchain hlastc
  have hinv0 : Inv env initialState :=
    fun _ => ⟨rfl, fun pre q e post h _ _ => by simp [initialState] at h⟩
  have hblk := inv_processBlockWith
    (fun st' p' =>
      ext_tryInlineCallWith (fun a b' c' => ext_inlineRequireF fuel a b' c')
        src st' p')
    (fun st' p' hi =>
      inv_tryInlineCallWith hexcl
        (fun a b' c' hinv' => inv_inlineRequireF hexcl fuel a b' c' hinv')
        src st' p' hi)
    initialState entry hinv0
  have key : (processEntryBlock env fuel src entry).1.errors ≠ [] := by
    intro hE
    have hE' : (processBlockWith (tryInlineCall env fuel src) initialState
        entry).1.errors = [] := hE
    obtain ⟨hskip, htopo⟩ := hblk.1 hE'
    have hcov := hblk.2 hE'
    have hwk : w ∈ cachePaths
        (processBlockWith (tryInlineCall env fuel src) initialState entry).1 :=
      hcov w hw
    have hck : c ∈ (processBlockWith (tryInlineCall env fuel src) initialState
        entry).1.moduleCache.map (·.1) :=
      chain_last_cached htopo walk w hwk hwalk c hlastw
    exact no_cycle htopo c hck cyc hcne hchain hlastc
  refine ⟨key, ?_⟩
  unfold processEntryBlock
  dsimp only
  split
  · rename_i hnil
    exact absurd hnil key
  · rename_i e0 hone
    exact ⟨e0, rfl⟩
  · exact ⟨_, rfl⟩

/-- C2 (witness): the general conjuncts applied to the concrete `v1`/`v2`
environment: the detection equation at a state whose stack already holds
`v1` and `v2`, and the general cyclic-failure theorem at the `v1`/`v2`
require graph. -/
theorem C2_cyclic_require_witness :
    (inlineRequireF envCyc 1 ⟨[], ["v1", "v2"], [], [], 0, []⟩ "v1" "game.v1" =
      (⟨[], ["v1", "v2"], [], [], 0, []⟩,
        .error "cyclic require detected with `v1` > `v2` > `v1`") ∧
      (["v1", "v2"].drop 0).head? = some "v1") ∧
    ((processEntryBlock envCyc 3 "main" cycEntry).1.errors ≠ [] ∧
      ∃ msg, (processEntryBlock envCyc 3 "main" cycEntry).2 = .error msg) := by
  constructor
  · have h := C2_cyclic_require.2.1 envCyc 0 ⟨[], ["v1", "v2"], [], [], 0, []⟩
      "v1" "game.v1" 0 rfl rfl
    exact ⟨by rw [h.1]; rfl, h.2⟩
  · exact C2_cyclic_require.2.2 envCyc 3 "main" cycEntry "v1" "v1" [] ["v2", "v1"]
      (fun _ => rfl) (by decide) rfl rfl (by decide) (by decide) rfl

end Bundle

namespace Worker

/-- An opaque parsed block (its contents are irrelevant to the driver). -/
structure WBlock where
  tag : Nat
deriving DecidableEq, Repr

/-- A rule as the driver sees it: a required-content query over the
normalized source and the current block, and the processing function (the
rule context's injected blocks influence `process` internally and are not
tracked here). -/
structure WRule where
  requireContent : String → WBlock → List String
  process : WBlock → Except String WBlock

/-- Modelled from the spec: `Progress` of a work item — the original source
text, the current mutable block, the next-rule index, the pending
required-content paths, and the duration counter (modelled by its
running/paused flag; elapsed time is outside the model). -/
structure Progress where
  content : String
  block : WBlock
  nextRule : Nat
  pending : List String
  durationRunning : Bool
deriving DecidableEq, Repr

/-- Modelled from the spec: `WorkStatus` (`NotStarted → InProgress → Done`). -/
inductive WorkStatus where
  | notStarted
  | inProgress (p : Progress)
  | done (output : String)
deriving DecidableEq, Repr

/-- Modelled from the spec: a work item (external-file dependencies, which
are extended only when a rule is applied, are outside the model). -/
structure WorkItem where
  source : String
  status : WorkStatus
deriving DecidableEq, Repr

/-- The worker's surroundings: the configured rules, the work cache
(`contains` and `get_block`), path normalization, loading/parsing of a
not-started source, and code generation for a finished block. -/
structure WorkerEnv where
  rules : List WRule
  cacheContains : String → Bool
  cacheBlock : String → Except String WBlock
  normalize : String → String
  load : String → Except String (String × WBlock)
  generate : WBlock → String

/-- Byte-order comparison on strings (how `PathBuf` ordering sorts the
required-content list). -/
def charListLe : List Char → List Char → Bool
  | [], _ => true
  | _ :: _, [] => false
  | a :: as, b :: bs =>
    if a.toNat < b.toNat then true
    else if b.toNat < a.toNat then false
    else charListLe as bs

/-- String comparison for the sort. -/
def strLeW (a b : String) : Bool := charListLe a.data b.data

/-- Insertion into a sorted list. -/
def insertSorted (x : String) : List String → List String
  | [] => [x]
  | y :: t => if strLeW x y then x :: y :: t else y :: insertSorted x t

/-- `Vec::sort` (insertion sort; the order agrees on sorted output). -/
def sortStr : List String → List String
  | [] => []
  | x :: t => insertSorted x (sortStr t)

/-- `Vec::dedup`: remove consecutive duplicates. -/
def dedupConsec : List String → List String
  | [] => []
  | [x] => [x]
  | x :: y :: t =>
    if x == y then dedupConsec (y :: t) else x :: dedupConsec (y :: t)

/-- The required-content list of one rule as `apply_rules` computes it:
query, normalize each path, drop the currently processed source, sort,
dedup. -/
def computeRequired (env : WorkerEnv) (nsource : String) (rule : WRule)
    (b : WBlock) : List String :=
  dedupConsec (sortStr
    (((rule.requireContent nsource b).map env.normalize).filter
      (fun p => !(p == nsource))))

/-- `get_block` for every required path (the `?` inside the injection
loop). -/
def collectBlocks (env : WorkerEnv) : List String → Except String (List WBlock)
  | [] => .ok []
  | p :: t =>
    match env.cacheBlock p with
    | .error e => .error e
    | .ok b =>
      match collectBlocks env t with
      | .error e => .error e
      | .ok bs => .ok (b :: bs)

/-- Indexed rules, as `rules().enumerate()`. -/
def enumerateFrom : Nat → List WRule → List (Nat × WRule)
  | _, [] => []
  | i, r :: t => (i, r) :: enumerateFrom (i + 1) t

/-- The outcome of the rule loop: suspended at a rule, or all rules done. -/
inductive LoopResult where
  | suspended (p : Progress)
  | finished (p : Progress)
deriving DecidableEq, Repr

/-- The `for (index, rule)` loop of `apply_rules`: if the deduplicated,
self-reference-free required content is non-empty and every path is cached,
inject the blocks and apply the rule; if some path is not cached, pause the
duration counter, record `next_rule = index` and the pending required
content, and return; with no required content, apply the rule directly.  A
rule (or `get_block`) failure aborts. -/
def applyRulesGo (env : WorkerEnv) (nsource : String) :
    List (Nat × WRule) → Progress → Except String LoopResult
  | [], prog => .ok (.finished prog)
  | (i, rule) :: rest, prog =>
    let required := computeRequired env nsource rule prog.block
    if required.isEmpty then
      match rule.process prog.block with
      | .error e => .error e
      | .ok b' => applyRulesGo env nsource rest { prog with block := b' }
    else if required.all env.cacheContains then
      match collectBlocks env required with
      | .error e => .error e
      | .ok _ =>
        match rule.process prog.block with
        | .error e => .error e
        | .ok b' => applyRulesGo env nsource rest { prog with block := b' }
    else
      .ok (.suspended { prog with
        nextRule := i
        pending := required
        durationRunning := false })

/-- `apply_rules`: a no-op unless the item is in progress; otherwise start
the duration counter and run the loop from `progress.next_rule`; loop
completion proceeds to generation and the item becomes `Done` (the final
cleanup pass and the generation details are outside this model). -/
def applyRules (env : WorkerEnv) (item : WorkItem) : Except String WorkItem :=
  match item.status with
  | .inProgress prog =>
    match applyRulesGo env (env.normalize item.source)
        ((enumerateFrom 0 env.rules).drop prog.nextRule)
        { prog with durationRunning := true } with
    | .error e => .error e
    | .ok (.suspended p') => .ok { item with status := .inProgress p' }
    | .ok (.finished p') => .ok { item with status := .done (env.generate p'.block) }
  | _ => .ok item

/-- `advance_work`: parse and start a not-started item then apply rules,
apply rules when in progress, and return successfully on a done item. -/
def advanceWork (env : WorkerEnv) (item : WorkItem) : Except String WorkItem :=
  match item.status with
  | .notStarted =>
    match env.load item.source with
    | .error e => .error e
    | .ok (content, block) =>
      applyRules env
        { item with status := .inProgress ⟨content, block, 0, [], false⟩ }
  | .inProgress _ => applyRules env item
  | .done _ => .ok item

end Worker

namespace Worker

/-- C9: suspension.  (1) When the head rule's deduplicated,
self-reference-free required content is non-empty and not fully cached, the
rule loop suspends immediately — the rule and every later rule are not
applied, the duration counter is paused, `next_rule` is set to the rule's
index and `pending` to the required content, and nothing else of the
progress changes (in particular the block and the original content).
(2) `advance` on such an in-progress item returns successfully with exactly
that bookkeeping change.  (3) `advance` on a done item returns successfully
and changes nothing. -/
theorem C9_suspension :
    (∀ (env : WorkerEnv) (nsource : String) (i : Nat) (rule : WRule)
        (rest : List (Nat × WRule)) (prog : Progress),
      computeRequired env nsource rule prog.block ≠ [] →
      (computeRequired env nsource rule prog.block).all env.cacheContains = false →
      applyRulesGo env nsource ((i, rule) :: rest) prog =
        .ok (.suspended { prog with
          nextRule := i
          pending := computeRequired env nsource rule prog.block
          durationRunning := false })) ∧
    (∀ (env : WorkerEnv) (item : WorkItem) (prog : Progress) (i : Nat)
        (rule : WRule) (rest : List (Nat × WRule)),
      item.status = .inProgress prog →
      (enumerateFrom 0 env.rules).drop prog.nextRule = (i, rule) :: rest →
      computeRequired env (env.normalize item.source) rule prog.block ≠ [] →
      (computeRequired env (env.normalize item.source) rule prog.block).all
        env.cacheContains = false →
      advanceWork env item = .ok { item with status :=
        (WorkStatus.inProgress ⟨prog.content, prog.block, i,
          computeRequired env (env.normalize item.source) rule prog.block,
          false⟩) }) ∧
    (∀ (env : WorkerEnv) (item : WorkItem) (out : String),
      item.status = .done out → advanceWork env item = .ok item) := by
  have part1 : ∀ (env : WorkerEnv) (nsource : String) (i : Nat) (rule : WRule)
      (rest : List (Nat × WRule)) (prog : Progress),
      computeRequired env nsource rule prog.block ≠ [] →
      (computeRequired env nsource rule prog.block).all env.cacheContains = false →
      applyRulesGo env nsource ((i, rule) :: rest) prog =
        .ok (.suspended { prog with
          nextRule := i
          pending := computeRequired env nsource rule prog.block
          durationRunning := false }) := by
    intro env nsource i rule rest prog hne hall
    unfold applyRulesGo
    have hie : (computeRequired env nsource rule prog.block).isEmpty = false := by
      cases hr : computeRequired env nsource rule prog.block with
      | nil => exact absurd hr hne
      | cons a t => rfl
    simp only [hie, Bool.false_eq_true, if_false, hall]
  refine ⟨part1, ?_, ?_⟩
  · intro env item prog i rule rest hstat henum hne hall
    unfold advanceWork
    rw [hstat]
    dsimp only
    unfold applyRules
    rw [hstat]
    dsimp only
    rw [henum]
    rw [part1 env (env.normalize item.source) i rule rest
      { prog with durationRunning := true } hne hall]
  · intro env item out hstat
    unfold advanceWork
    rw [hstat]

/-- The concrete suspension scenario: one rule requiring `dep.lua`, which
is not in the work cache. -/
def envW : WorkerEnv := {
  rules := [⟨fun _ _ => ["dep.lua"], fun b => .ok b⟩]
  cacheContains := fun _ => false
  cacheBlock := fun _ => .error "missing"
  normalize := fun p => p
  load := fun _ => .error "unused"
  generate := fun _ => "out" }

/-- C9 (witness): advancing the in-progress item suspends with
`next_rule = 0`, `pending = [dep.lua]`, a paused duration counter and an
unchanged block; advancing a done item changes nothing. -/
theorem C9_suspension_witness :
    advanceWork envW ⟨"main.lua", .inProgress ⟨"src", ⟨7⟩, 0, [], true⟩⟩ =
      .ok ⟨"main.lua", .inProgress ⟨"src", ⟨7⟩, 0, ["dep.lua"], false⟩⟩ ∧
    advanceWork envW ⟨"main.lua", .done "out"⟩ =
      .ok ⟨"main.lua", .done "out"⟩ := by
  constructor
  · exact C9_suspension.2.1 envW ⟨"main.lua", .inProgress ⟨"src", ⟨7⟩, 0, [], true⟩⟩
      ⟨"src", ⟨7⟩, 0, [], true⟩ 0 ⟨fun _ _ => ["dep.lua"], fun b => .ok b⟩ []
      rfl rfl (by decide) rfl
  · exact C9_suspension.2.2 envW ⟨"main.lua", .done "out"⟩ "out" rfl

end Worker
